import Mathlib

set_option maxRecDepth 4000

/-!
Verification of the `cesu8` conversion library (CESU-8 ↔ UTF-8).

Byte sequences are modelled as `List Nat` with every element below 256
(Rust `&[u8]`).  A Rust `&str` is modelled by its UTF-8 byte sequence; a
well-formed string is additionally described by the list of Unicode scalar
values it contains, whose byte form is produced by `utf8Encode`.
`Cow` models `std::borrow::Cow`, keeping the borrowed/owned distinction.
Fallible paths (the `DecodingError` result of `decode`, and the `unwrap` /
slice-out-of-range panics reachable in `encode`/`encoded_len` on invalid
UTF-8 input) are modelled with `Except` and `Option`.
-/

/-- Model of `std::borrow::Cow`: a borrowed or an owned byte sequence. -/
inductive Cow where
  | borrowed : List Nat → Cow
  | owned : List Nat → Cow
deriving DecidableEq

/-- The underlying bytes of a `Cow` value. -/
def Cow.val : Cow → List Nat
  | .borrowed bs => bs
  | .owned bs => bs

/-- `src/error.rs`: `pub struct DecodingError;`, the single opaque error
type returned by `decode`; it carries no diagnostic payload. -/
structure DecodingError where
deriving DecidableEq

/-- `src/lib.rs` line 414: `MAX_ASCII_CODE_POINT`. -/
def MAX_ASCII_CODE_POINT : Nat := 0x7F

/-- `src/lib.rs` line 386: `CESU8_MAX_CHAR_WIDTH`. -/
def CESU8_MAX_CHAR_WIDTH : Nat := 3

/-- `src/lib.rs` line 395: `CONT_TAG`, the `10xxxxxx` continuation tag. -/
def CONT_TAG : Nat := 0x80

/-- `src/lib.rs` lines 402-410: `utf8_char_width`, the lead-byte width
table (the Rust `match` on byte ranges). -/
def utf8_char_width (byte : Nat) : Option Nat :=
  if byte ≤ MAX_ASCII_CODE_POINT then some 1
  else if 0xC2 ≤ byte ∧ byte ≤ 0xDF then some 2
  else if 0xE0 ≤ byte ∧ byte ≤ 0xEF then some 3
  else if 0xF0 ≤ byte ∧ byte ≤ 0xF4 then some 4
  else none

/-- `src/lib.rs` lines 388-392: `is_continuation_byte`:
`byte & 0b1100_0000 == 0b1000_0000`. -/
def is_continuation_byte (byte : Nat) : Bool :=
  byte &&& 0xC0 == CONT_TAG

/-- `src/lib.rs` lines 224-228: `decode_surrogate`:
`0xD000 | ((second & 0x3F) << 6) | (third & 0x3F)`. -/
def decode_surrogate (second third : Nat) : Nat :=
  0xD000 ||| ((second &&& 0x3F) <<< 6) ||| (third &&& 0x3F)

/-- `src/lib.rs` lines 230-239: `decode_code_point`, re-encoding a
supplementary code point as a standard 4-byte UTF-8 sequence.  The masks
are the source's binary literals written in hexadecimal:
`0b1_1100_0000_0000_0000_0000 = 0x1C0000`, etc. -/
def decode_code_point (code_point : Nat) : List Nat :=
  [0xF0 ||| ((code_point &&& 0x1C0000) >>> 18),
   CONT_TAG ||| ((code_point &&& 0x3F000) >>> 12),
   CONT_TAG ||| ((code_point &&& 0xFC0) >>> 6),
   CONT_TAG ||| (code_point &&& 0x3F)]

/-- `src/lib.rs` lines 216-222: `decode_surrogate_pair`, combining the two
surrogate values into `0x10000 + ((s1 - 0xD800) << 10 | (s2 - 0xDC00))`. -/
def decode_surrogate_pair (second third fifth sixth : Nat) : List Nat :=
  let surrogate1 := decode_surrogate second third
  let surrogate2 := decode_surrogate fifth sixth
  let code_point := 0x10000 + (((surrogate1 - 0xD800) <<< 10) ||| (surrogate2 - 0xDC00))
  decode_code_point code_point

/-- `src/lib.rs` lines 170-210: the byte-scanning loop of `decode` (the
slow path).  `none` models `return Err(DecodingError)`, raised by `err!`,
by `next!` on exhausted input and by `next_continuation!` on a
non-continuation byte.  Each branch extends the accumulator exactly as the
corresponding `decoded.push` / `decoded.extend_from_slice` call does.
The source's `match` on the width is rendered by the equality tests
`utf8_char_width first = some 2` / `= some 3` (with the `None => err!()`
case first and every other width falling through to `none`).  In the
surrogate-pair arm the source fetches `fourth`/`fifth`/`sixth` one at a
time, failing on exhausted input; the flattened three-element pattern
returns the same `none` in each of those truncated cases. -/
def decodeSlow : List Nat → Option (List Nat)
  | [] => some []
  | first :: rest =>
    if first ≤ MAX_ASCII_CODE_POINT then
      (decodeSlow rest).map (fun tail => first :: tail)
    else if utf8_char_width first = none then none
    else
      match rest with
      | [] => none
      | second :: rest2 =>
        if ¬ is_continuation_byte second then none
        else if utf8_char_width first = some 2 then
          (decodeSlow rest2).map (fun tail => first :: second :: tail)
        else if utf8_char_width first = some 3 then
          match rest2 with
          | [] => none
          | third :: rest3 =>
            if ¬ is_continuation_byte third then none
            else if (first = 0xE0 ∧ 0xA0 ≤ second ∧ second ≤ 0xBF)
                ∨ (0xE1 ≤ first ∧ first ≤ 0xEC ∧ 0x80 ≤ second ∧ second ≤ 0xBF)
                ∨ (first = 0xED ∧ 0x80 ≤ second ∧ second ≤ 0x9F)
                ∨ (0xEE ≤ first ∧ first ≤ 0xEF ∧ 0x80 ≤ second ∧ second ≤ 0xBF) then
              (decodeSlow rest3).map (fun tail => first :: second :: third :: tail)
            else if first = 0xED ∧ 0xA0 ≤ second ∧ second ≤ 0xAF then
              match rest3 with
              | fourth :: fifth :: sixth :: rest6 =>
                if fourth ≠ 0xED then none
                else if ¬ is_continuation_byte fifth then none
                else if ¬(0xB0 ≤ fifth ∧ fifth ≤ 0xBF) then none
                else if ¬ is_continuation_byte sixth then none
                else
                  (decodeSlow rest6).map (fun tail =>
                    decode_surrogate_pair second third fifth sixth ++ tail)
              | _ => none
            else none
        else none

/-- Model of `std::str::from_utf8` validation: strict UTF-8
well-formedness of a byte sequence (RFC 3629 ranges, the check Rust's
standard library performs).  This is external standard-library behaviour
the source relies on in `decode`'s fast path. -/
def utf8Valid : List Nat → Bool
  | [] => true
  | b :: rest =>
    if b ≤ 0x7F then utf8Valid rest
    else
      match rest with
      | [] => false
      | b2 :: rest2 =>
        if 0xC2 ≤ b ∧ b ≤ 0xDF then
          if 0x80 ≤ b2 ∧ b2 ≤ 0xBF then utf8Valid rest2 else false
        else
          match rest2 with
          | [] => false
          | b3 :: rest3 =>
            if 0xE0 ≤ b ∧ b ≤ 0xEF then
              if ((b = 0xE0 ∧ 0xA0 ≤ b2 ∧ b2 ≤ 0xBF)
                  ∨ (0xE1 ≤ b ∧ b ≤ 0xEC ∧ 0x80 ≤ b2 ∧ b2 ≤ 0xBF)
                  ∨ (b = 0xED ∧ 0x80 ≤ b2 ∧ b2 ≤ 0x9F)
                  ∨ (0xEE ≤ b ∧ b ≤ 0xEF ∧ 0x80 ≤ b2 ∧ b2 ≤ 0xBF))
                  ∧ 0x80 ≤ b3 ∧ b3 ≤ 0xBF then utf8Valid rest3
              else false
            else
              match rest3 with
              | [] => false
              | b4 :: rest4 =>
                if 0xF0 ≤ b ∧ b ≤ 0xF4 then
                  if ((b = 0xF0 ∧ 0x90 ≤ b2 ∧ b2 ≤ 0xBF)
                      ∨ (0xF1 ≤ b ∧ b ≤ 0xF3 ∧ 0x80 ≤ b2 ∧ b2 ≤ 0xBF)
                      ∨ (b = 0xF4 ∧ 0x80 ≤ b2 ∧ b2 ≤ 0x8F))
                      ∧ 0x80 ≤ b3 ∧ b3 ≤ 0xBF ∧ 0x80 ≤ b4 ∧ b4 ≤ 0xBF then utf8Valid rest4
                  else false
                else false

/-- `src/lib.rs` lines 136-214: `decode`.  The fast path returns the input
borrowed when it is already valid UTF-8 (`from_utf8` succeeds); otherwise
the slow path scans the bytes and returns them owned, or fails. -/
def decode (bytes : List Nat) : Except DecodingError Cow :=
  if utf8Valid bytes then .ok (.borrowed bytes)
  else
    match decodeSlow bytes with
    | some decoded => .ok (.owned decoded)
    | none => .error ⟨⟩

/-- `src/lib.rs` lines 309-317: `encode_surrogate`, rendering one 16-bit
surrogate value as a 3-byte sequence with lead tag `0b1110_0000`. -/
def encode_surrogate (surrogate : Nat) : List Nat :=
  [0xE0 ||| ((surrogate &&& 0xF000) >>> 12),
   CONT_TAG ||| ((surrogate &&& 0xFC0) >>> 6),
   CONT_TAG ||| (surrogate &&& 0x3F)]

/-- `src/lib.rs` lines 302-307: `encode_surrogate_pair`. -/
def encode_surrogate_pair (surrogate_pair : Nat × Nat) : List Nat :=
  encode_surrogate surrogate_pair.1 ++ encode_surrogate surrogate_pair.2

/-- `src/lib.rs` lines 319-325: `to_surrogate_pair`:
`first = (cp >> 10) | 0xD800`, `second = (cp & 0x3FF) | 0xDC00` where
`cp = code_point - 0x10000` (only reached with `code_point ≥ 0x10000`). -/
def to_surrogate_pair (code_point : Nat) : Nat × Nat :=
  let cp := code_point - 0x10000
  ((cp >>> 10) ||| 0xD800, (cp &&& 0x3FF) ||| 0xDC00)

/-- Model of `str.chars().next().unwrap() as u32` applied to a 4-byte
UTF-8 sequence (standard-library behaviour used at `src/lib.rs` line 290):
the scalar value carried by the payload bits of the four bytes. -/
def utf8DecodeFour (b1 b2 b3 b4 : Nat) : Nat :=
  (b1 % 8) * 0x40000 + (b2 % 64) * 0x1000 + (b3 % 64) * 64 + (b4 % 64)

/-- `src/lib.rs` lines 369-383: `is_valid`: scan all bytes, skip
continuation bytes, reject any lead byte wider than 3 or not a legal
UTF-8 lead byte. -/
def is_valid : List Nat → Bool
  | [] => true
  | byte :: rest =>
    if is_continuation_byte byte then is_valid rest
    else
      match utf8_char_width byte with
      | some width => if CESU8_MAX_CHAR_WIDTH < width then false else is_valid rest
      | none => false

/-- `src/lib.rs` lines 278-297: the byte-scanning loop of `encode` (the
slow path).  `none` models the panics reachable only on invalid UTF-8
input: `utf8_char_width(byte).unwrap()` on a non-lead byte, and the
out-of-range slices `bytes[index..index + width]` / `str[index..index + 4]`.
The source's `width <= CESU8_MAX_CHAR_WIDTH` copy-through of
`bytes[index..index + width]` is rendered by the `= some 2` / `= some 3`
tests (the only widths reaching it, ASCII having been handled above); the
remaining case is width 4, which re-encodes the sequence's scalar value
as a surrogate pair.  The `none` arms on short `rest` are the
out-of-range slice panics. -/
def encodeSlow : List Nat → Option (List Nat)
  | [] => some []
  | byte :: rest =>
    if byte ≤ MAX_ASCII_CODE_POINT then
      (encodeSlow rest).map (fun tail => byte :: tail)
    else if utf8_char_width byte = none then none
    else
      match rest with
      | [] => none
      | b2 :: rest2 =>
        if utf8_char_width byte = some 2 then
          (encodeSlow rest2).map (fun tail => byte :: b2 :: tail)
        else
          match rest2 with
          | [] => none
          | b3 :: rest3 =>
            if utf8_char_width byte = some 3 then
              (encodeSlow rest3).map (fun tail => byte :: b2 :: b3 :: tail)
            else
              match rest3 with
              | [] => none
              | b4 :: rest4 =>
                (encodeSlow rest4).map (fun tail =>
                  encode_surrogate_pair
                    (to_surrogate_pair (utf8DecodeFour byte b2 b3 b4)) ++ tail)

/-- `src/lib.rs` lines 268-300: `encode`.  If the string is already valid
CESU-8 its bytes are returned borrowed; otherwise the slow path rewrites
them into an owned buffer. -/
def encode (s : List Nat) : Option Cow :=
  if is_valid s then some (.borrowed s)
  else (encodeSlow s).map .owned

/-- `src/lib.rs` lines 329-349: `encoded_len`: accumulate the literal
width for sequences of width ≤ 3 and 6 for each 4-byte sequence, skipping
`width` bytes each step (`index += width`; if that overshoots the end the
loop simply stops, so a truncated trailing sequence still counts fully).
`none` models the `utf8_char_width(byte).unwrap()` panic on a non-lead
byte.  As in `encodeSlow`, the width dispatch is rendered by `= some 2` /
`= some 3` tests with the remaining case being width 4; the `some width`
results on short `rest` are the loop stopping with the width already
counted. -/
def encoded_len : List Nat → Option Nat
  | [] => some 0
  | byte :: rest =>
    if byte ≤ MAX_ASCII_CODE_POINT then
      (encoded_len rest).map (fun n => n + 1)
    else if utf8_char_width byte = none then none
    else
      match rest with
      | [] =>
        if utf8_char_width byte = some 2 then some 2
        else if utf8_char_width byte = some 3 then some 3
        else some 6
      | _ :: rest2 =>
        if utf8_char_width byte = some 2 then
          (encoded_len rest2).map (fun n => n + 2)
        else
          match rest2 with
          | [] => if utf8_char_width byte = some 3 then some 3 else some 6
          | _ :: rest3 =>
            if utf8_char_width byte = some 3 then
              (encoded_len rest3).map (fun n => n + 3)
            else
              match rest3 with
              | [] => some 6
              | _ :: rest4 => (encoded_len rest4).map (fun n => n + 6)

/-- A Unicode scalar value: what a Rust `char` may hold. -/
def IsScalar (c : Nat) : Prop :=
  c < 0x110000 ∧ (c < 0xD800 ∨ 0xDFFF < c)

instance (c : Nat) : Decidable (IsScalar c) := by
  unfold IsScalar; infer_instance

/-- Standard UTF-8 encoding of one scalar value (the byte form a Rust
`char` contributes to `str::as_bytes`). -/
def utf8EncodeChar (c : Nat) : List Nat :=
  if c < 0x80 then [c]
  else if c < 0x800 then [0xC0 + c / 64, 0x80 + c % 64]
  else if c < 0x10000 then
    [0xE0 + c / 4096, 0x80 + c / 64 % 64, 0x80 + c % 64]
  else
    [0xF0 + c / 0x40000, 0x80 + c / 4096 % 64, 0x80 + c / 64 % 64, 0x80 + c % 64]

/-- Byte form of a well-formed string given by its scalar values. -/
def utf8Encode : List Nat → List Nat
  | [] => []
  | c :: cs => utf8EncodeChar c ++ utf8Encode cs

/-- The CESU-8 byte form of one scalar value: UTF-8 below `0x10000`, the
six surrogate-pair bytes above. -/
def cesu8EncodeChar (c : Nat) : List Nat :=
  if c < 0x10000 then utf8EncodeChar c
  else
    [0xED, 0xA0 + (c - 0x10000) / 1024 / 64, 0x80 + (c - 0x10000) / 1024 % 64,
     0xED, 0xB0 + (c - 0x10000) % 1024 / 64, 0x80 + (c - 0x10000) % 1024 % 64]

/-- CESU-8 byte form of a well-formed string given by its scalar values. -/
def cesu8Encode : List Nat → List Nat
  | [] => []
  | c :: cs => cesu8EncodeChar c ++ cesu8Encode cs

example : decode [0xED, 0xA0, 0x81, 0xED, 0xB0, 0x81] = .ok (.owned [0xF0, 0x90, 0x90, 0x81]) := by
  rfl

example : decode [0x48, 0x65, 0x6C] = .ok (.borrowed [0x48, 0x65, 0x6C]) := by rfl

example : encode (utf8Encode [0x10401]) = some (.owned [0xED, 0xA0, 0x81, 0xED, 0xB0, 0x81]) := by
  rfl

example : decode [0xED, 0xA0, 0x81] = .error ⟨⟩ := by rfl

example : encoded_len (utf8Encode [0x48, 0x10401]) = some 7 := by rfl

example : is_valid (utf8Encode [0x10401]) = false := by rfl

/-! ### Bit-arithmetic bridges -/

theorem land_shiftLeft_shiftRight (x m k : Nat) :
    (x &&& (m <<< k)) >>> k = (x >>> k) &&& m := by
  apply Nat.eq_of_testBit_eq
  intro i
  simp only [Nat.testBit_shiftRight, Nat.testBit_and, Nat.testBit_shiftLeft]
  simp [Nat.le_add_right, Nat.add_sub_cancel_left]

theorem lor_eq_add (k a b : Nat) (ha : a % 2 ^ k = 0) (hb : b < 2 ^ k) :
    a ||| b = a + b := by
  have h := Nat.mul_add_lt_is_or hb (a / 2 ^ k)
  have h2 : 2 ^ k * (a / 2 ^ k) = a := Nat.mul_div_cancel' (Nat.dvd_of_mod_eq_zero ha)
  rw [h2] at h
  exact h.symm

theorem and_63 (x : Nat) : x &&& 0x3F = x % 64 := by
  have h := Nat.and_pow_two_sub_one_eq_mod x 6
  norm_num at h
  exact h

theorem and_3FF (x : Nat) : x &&& 0x3FF = x % 1024 := by
  have h := Nat.and_pow_two_sub_one_eq_mod x 10
  norm_num at h
  exact h

theorem and_FC0_shr6 (x : Nat) : (x &&& 0xFC0) >>> 6 = x / 64 % 64 := by
  have e : (0xFC0 : Nat) = 63 <<< 6 := by decide
  rw [e, land_shiftLeft_shiftRight, Nat.shiftRight_eq_div_pow]
  have h := Nat.and_pow_two_sub_one_eq_mod (x / 2 ^ 6) 6
  norm_num at h ⊢
  exact h

theorem and_F000_shr12 (x : Nat) : (x &&& 0xF000) >>> 12 = x / 4096 % 16 := by
  have e : (0xF000 : Nat) = 15 <<< 12 := by decide
  rw [e, land_shiftLeft_shiftRight, Nat.shiftRight_eq_div_pow]
  have h := Nat.and_pow_two_sub_one_eq_mod (x / 2 ^ 12) 4
  norm_num at h ⊢
  exact h

theorem and_3F000_shr12 (x : Nat) : (x &&& 0x3F000) >>> 12 = x / 4096 % 64 := by
  have e : (0x3F000 : Nat) = 63 <<< 12 := by decide
  rw [e, land_shiftLeft_shiftRight, Nat.shiftRight_eq_div_pow]
  have h := Nat.and_pow_two_sub_one_eq_mod (x / 2 ^ 12) 6
  norm_num at h ⊢
  exact h

theorem and_1C0000_shr18 (x : Nat) : (x &&& 0x1C0000) >>> 18 = x / 0x40000 % 8 := by
  have e : (0x1C0000 : Nat) = 7 <<< 18 := by decide
  rw [e, land_shiftLeft_shiftRight, Nat.shiftRight_eq_div_pow]
  have h := Nat.and_pow_two_sub_one_eq_mod (x / 2 ^ 18) 3
  norm_num at h ⊢
  exact h

/-- Arithmetic form of `decode_surrogate`. -/
theorem decode_surrogate_eq (s t : Nat) :
    decode_surrogate s t = 0xD000 + s % 64 * 64 + t % 64 := by
  unfold decode_surrogate
  rw [and_63, and_63, Nat.shiftLeft_eq]
  have h1 : (0xD000 : Nat) ||| s % 64 * 2 ^ 6 = 0xD000 + s % 64 * 2 ^ 6 := by
    apply lor_eq_add 12
    · decide
    · have := Nat.mod_lt s (show (0:Nat) < 64 by omega)
      norm_num
      omega
  rw [h1]
  apply lor_eq_add 6
  · have := Nat.mod_lt s (show (0:Nat) < 64 by omega)
    omega
  · have := Nat.mod_lt t (show (0:Nat) < 64 by omega)
    norm_num
    omega

/-- Arithmetic form of `decode_code_point` below `2^21`. -/
theorem decode_code_point_eq (c : Nat) (h : c < 0x200000) :
    decode_code_point c =
      [0xF0 + c / 0x40000, 0x80 + c / 4096 % 64, 0x80 + c / 64 % 64, 0x80 + c % 64] := by
  unfold decode_code_point
  rw [and_1C0000_shr18, and_3F000_shr12, and_FC0_shr6, and_63]
  have h18 : c / 0x40000 % 8 = c / 0x40000 := by
    apply Nat.mod_eq_of_lt
    omega
  rw [h18]
  have e1 : (0xF0 : Nat) ||| c / 0x40000 = 0xF0 + c / 0x40000 := by
    apply lor_eq_add 4
    · decide
    · norm_num
      omega
  have e2 : CONT_TAG ||| c / 4096 % 64 = 0x80 + c / 4096 % 64 := by
    apply lor_eq_add 7
    · decide
    · have := Nat.mod_lt (c / 4096) (show (0:Nat) < 64 by omega)
      norm_num
      omega
  have e3 : CONT_TAG ||| c / 64 % 64 = 0x80 + c / 64 % 64 := by
    apply lor_eq_add 7
    · decide
    · have := Nat.mod_lt (c / 64) (show (0:Nat) < 64 by omega)
      norm_num
      omega
  have e4 : CONT_TAG ||| c % 64 = 0x80 + c % 64 := by
    apply lor_eq_add 7
    · decide
    · have := Nat.mod_lt c (show (0:Nat) < 64 by omega)
      norm_num
      omega
  rw [e1, e2, e3, e4]

/-- On a supplementary code point, `decode_code_point` produces exactly
its standard 4-byte UTF-8 encoding. -/
theorem decode_code_point_eq_utf8EncodeChar (c : Nat)
    (h1 : 0x10000 ≤ c) (h2 : c < 0x110000) :
    decode_code_point c = utf8EncodeChar c := by
  rw [decode_code_point_eq c (by omega)]
  unfold utf8EncodeChar
  rw [if_neg (by omega), if_neg (by omega), if_neg (by omega)]

/-- Arithmetic form of `encode_surrogate` on a 16-bit value in the
`0xD000`-page (covers both surrogate halves). -/
theorem encode_surrogate_eq (s : Nat) (h1 : 0xD000 ≤ s) (h2 : s < 0xE000) :
    encode_surrogate s = [0xED, 0x80 + s / 64 % 64, 0x80 + s % 64] := by
  unfold encode_surrogate
  rw [and_F000_shr12, and_FC0_shr6, and_63]
  have h12 : s / 4096 % 16 = 13 := by omega
  rw [h12]
  have e1 : (0xE0 : Nat) ||| 13 = 0xED := by decide
  have e2 : CONT_TAG ||| s / 64 % 64 = 0x80 + s / 64 % 64 := by
    apply lor_eq_add 7
    · decide
    · have := Nat.mod_lt (s / 64) (show (0:Nat) < 64 by omega)
      norm_num
      omega
  have e3 : CONT_TAG ||| s % 64 = 0x80 + s % 64 := by
    apply lor_eq_add 7
    · decide
    · have := Nat.mod_lt s (show (0:Nat) < 64 by omega)
      norm_num
      omega
  rw [e1, e2, e3]

/-- Arithmetic form of `to_surrogate_pair` on a supplementary code point. -/
theorem to_surrogate_pair_eq (c : Nat) (h2 : c < 0x110000) :
    to_surrogate_pair c =
      (0xD800 + (c - 0x10000) / 1024, 0xDC00 + (c - 0x10000) % 1024) := by
  show ((c - 0x10000) >>> 10 ||| 0xD800, ((c - 0x10000) &&& 0x3FF) ||| 0xDC00) = _
  rw [and_3FF, Nat.shiftRight_eq_div_pow]
  have e1 : (c - 0x10000) / 2 ^ 10 ||| 0xD800 = 0xD800 + (c - 0x10000) / 1024 := by
    rw [Nat.lor_comm]
    apply lor_eq_add 11
    · decide
    · norm_num
      omega
  have e2 : (c - 0x10000) % 1024 ||| 0xDC00 = 0xDC00 + (c - 0x10000) % 1024 := by
    rw [Nat.lor_comm]
    apply lor_eq_add 10
    · decide
    · have := Nat.mod_lt (c - 0x10000) (show (0:Nat) < 1024 by omega)
      norm_num
      omega
  rw [e1, e2]

/-- `is_continuation_byte` agrees with the byte range `0x80`–`0xBF`. -/
theorem cont_fin : ∀ b : Fin 256,
    is_continuation_byte b.val = decide (0x80 ≤ b.val ∧ b.val ≤ 0xBF) := by decide

theorem is_continuation_byte_iff (b : Nat) (h : b < 256) :
    is_continuation_byte b = true ↔ (0x80 ≤ b ∧ b ≤ 0xBF) := by
  have h2 := cont_fin ⟨b, h⟩
  simp only at h2
  rw [h2, decide_eq_true_eq]

/-- `decode_surrogate_pair` applied to in-range surrogate bytes yields the
standard 4-byte UTF-8 encoding of the combined supplementary scalar. -/
theorem decode_surrogate_pair_eq (second third fifth sixth : Nat)
    (h2 : 0xA0 ≤ second) (h2b : second ≤ 0xAF)
    (h3 : 0x80 ≤ third) (h3b : third ≤ 0xBF)
    (h5 : 0xB0 ≤ fifth) (h5b : fifth ≤ 0xBF)
    (h6 : 0x80 ≤ sixth) (h6b : sixth ≤ 0xBF) :
    decode_surrogate_pair second third fifth sixth =
      utf8EncodeChar (0x10000 + (64 * (second - 0xA0) + (third - 0x80)) * 1024
        + (64 * (fifth - 0xB0) + (sixth - 0x80))) := by
  show decode_code_point (0x10000 +
      (((decode_surrogate second third - 0xD800) <<< 10)
        ||| (decode_surrogate fifth sixth - 0xDC00))) = _
  rw [decode_surrogate_eq, decode_surrogate_eq]
  have hs1 : 0xD000 + second % 64 * 64 + third % 64 - 0xD800
      = 64 * (second - 0xA0) + (third - 0x80) := by omega
  have hs2 : 0xD000 + fifth % 64 * 64 + sixth % 64 - 0xDC00
      = 64 * (fifth - 0xB0) + (sixth - 0x80) := by omega
  rw [hs1, hs2, Nat.shiftLeft_eq]
  rw [lor_eq_add 10 _ _ (by omega) (by omega)]
  have harg : 0x10000 + ((64 * (second - 0xA0) + (third - 0x80)) * 2 ^ 10
        + (64 * (fifth - 0xB0) + (sixth - 0x80)))
      = 0x10000 + (64 * (second - 0xA0) + (third - 0x80)) * 1024
        + (64 * (fifth - 0xB0) + (sixth - 0x80)) := by omega
  rw [harg]
  exact decode_code_point_eq_utf8EncodeChar _ (by omega) (by omega)

/-! ### Range facts about the byte classifiers -/

theorem utf8_char_width_1 (b : Nat) (h : b ≤ 0x7F) : utf8_char_width b = some 1 := by
  unfold utf8_char_width MAX_ASCII_CODE_POINT
  rw [if_pos (by omega)]

theorem utf8_char_width_2 (b : Nat) (h1 : 0xC2 ≤ b) (h2 : b ≤ 0xDF) :
    utf8_char_width b = some 2 := by
  unfold utf8_char_width MAX_ASCII_CODE_POINT
  rw [if_neg (by omega), if_pos (by omega)]

theorem utf8_char_width_3 (b : Nat) (h1 : 0xE0 ≤ b) (h2 : b ≤ 0xEF) :
    utf8_char_width b = some 3 := by
  unfold utf8_char_width MAX_ASCII_CODE_POINT
  rw [if_neg (by omega), if_neg (by omega), if_pos (by omega)]

theorem utf8_char_width_4 (b : Nat) (h1 : 0xF0 ≤ b) (h2 : b ≤ 0xF4) :
    utf8_char_width b = some 4 := by
  unfold utf8_char_width MAX_ASCII_CODE_POINT
  rw [if_neg (by omega), if_neg (by omega), if_neg (by omega), if_pos (by omega)]

theorem utf8_char_width_none (b : Nat) (h : (0x7F < b ∧ b < 0xC2) ∨ 0xF4 < b) :
    utf8_char_width b = none := by
  unfold utf8_char_width MAX_ASCII_CODE_POINT
  rw [if_neg (by omega), if_neg (by omega), if_neg (by omega), if_neg (by omega)]

theorem cont_of_range (b : Nat) (h1 : 0x80 ≤ b) (h2 : b ≤ 0xBF) :
    is_continuation_byte b = true :=
  (is_continuation_byte_iff b (by omega)).mpr ⟨h1, h2⟩

theorem not_cont_low (b : Nat) (h : b ≤ 0x7F) : is_continuation_byte b = false := by
  rcases hb : is_continuation_byte b
  · rfl
  · exact absurd ((is_continuation_byte_iff b (by omega)).mp hb) (by omega)

theorem not_cont_high (b : Nat) (h1 : 0xC0 ≤ b) (h2 : b < 256) :
    is_continuation_byte b = false := by
  rcases hb : is_continuation_byte b
  · rfl
  · exact absurd ((is_continuation_byte_iff b h2).mp hb) (by omega)

/-! ### Shapes of the per-character encodings -/

theorem uec_ascii (c : Nat) (h : c < 0x80) : utf8EncodeChar c = [c] := by
  unfold utf8EncodeChar
  rw [if_pos h]

theorem uec_two (c : Nat) (h1 : 0x80 ≤ c) (h2 : c < 0x800) :
    utf8EncodeChar c = [0xC0 + c / 64, 0x80 + c % 64] := by
  unfold utf8EncodeChar
  rw [if_neg (by omega), if_pos h2]

theorem uec_three (c : Nat) (h1 : 0x800 ≤ c) (h2 : c < 0x10000) :
    utf8EncodeChar c = [0xE0 + c / 4096, 0x80 + c / 64 % 64, 0x80 + c % 64] := by
  unfold utf8EncodeChar
  rw [if_neg (by omega), if_neg (by omega), if_pos h2]

theorem uec_four (c : Nat) (h : 0x10000 ≤ c) :
    utf8EncodeChar c
      = [0xF0 + c / 0x40000, 0x80 + c / 4096 % 64, 0x80 + c / 64 % 64, 0x80 + c % 64] := by
  unfold utf8EncodeChar
  rw [if_neg (by omega), if_neg (by omega), if_neg (by omega)]

theorem cec_bmp (c : Nat) (h : c < 0x10000) : cesu8EncodeChar c = utf8EncodeChar c := by
  unfold cesu8EncodeChar
  rw [if_pos h]

theorem cec_supp (c : Nat) (h : 0x10000 ≤ c) :
    cesu8EncodeChar c
      = [0xED, 0xA0 + (c - 0x10000) / 1024 / 64, 0x80 + (c - 0x10000) / 1024 % 64,
         0xED, 0xB0 + (c - 0x10000) % 1024 / 64, 0x80 + (c - 0x10000) % 1024 % 64] := by
  unfold cesu8EncodeChar
  rw [if_neg (by omega)]

/-! ### Stepping behaviour of the slow decoder -/

theorem decodeSlow_ascii (b : Nat) (h : b ≤ 0x7F) (l : List Nat) :
    decodeSlow (b :: l) = (decodeSlow l).map (fun tail => b :: tail) := by
  rw [decodeSlow.eq_def]
  dsimp only
  rw [if_pos (by simp only [MAX_ASCII_CODE_POINT]; omega)]

theorem decodeSlow_two (b b2 : Nat) (h1 : 0xC2 ≤ b) (h2 : b ≤ 0xDF)
    (hc : is_continuation_byte b2 = true) (l : List Nat) :
    decodeSlow (b :: b2 :: l) = (decodeSlow l).map (fun tail => b :: b2 :: tail) := by
  rw [decodeSlow.eq_def]
  dsimp only
  rw [if_neg (by simp only [MAX_ASCII_CODE_POINT]; omega)]
  simp only [utf8_char_width_2 b h1 h2, hc]
  norm_num
  simp

theorem decodeSlow_three (b b2 b3 : Nat) (h1 : 0xE0 ≤ b) (h2 : b ≤ 0xEF)
    (hc2 : is_continuation_byte b2 = true) (hc3 : is_continuation_byte b3 = true)
    (hord : (b = 0xE0 ∧ 0xA0 ≤ b2 ∧ b2 ≤ 0xBF)
        ∨ (0xE1 ≤ b ∧ b ≤ 0xEC ∧ 0x80 ≤ b2 ∧ b2 ≤ 0xBF)
        ∨ (b = 0xED ∧ 0x80 ≤ b2 ∧ b2 ≤ 0x9F)
        ∨ (0xEE ≤ b ∧ b ≤ 0xEF ∧ 0x80 ≤ b2 ∧ b2 ≤ 0xBF)) (l : List Nat) :
    decodeSlow (b :: b2 :: b3 :: l)
      = (decodeSlow l).map (fun tail => b :: b2 :: b3 :: tail) := by
  rw [decodeSlow.eq_def]
  dsimp only
  rw [if_neg (by simp only [MAX_ASCII_CODE_POINT]; omega)]
  simp only [utf8_char_width_3 b h1 h2, hc2, hc3]
  norm_num
  rw [if_pos hord]
  simp

theorem decodeSlow_pair_step (b2 b3 : Nat) (h2 : 0xA0 ≤ b2) (h2b : b2 ≤ 0xAF)
    (hc3 : is_continuation_byte b3 = true) (rest : List Nat) :
    decodeSlow (0xED :: b2 :: b3 :: rest)
      = match rest with
        | fourth :: fifth :: sixth :: rest6 =>
          if fourth ≠ 0xED then none
          else if ¬ is_continuation_byte fifth then none
          else if ¬(0xB0 ≤ fifth ∧ fifth ≤ 0xBF) then none
          else if ¬ is_continuation_byte sixth then none
          else
            (decodeSlow rest6).map (fun tail =>
              decode_surrogate_pair b2 b3 fifth sixth ++ tail)
        | _ => none := by
  rw [decodeSlow.eq_def]
  dsimp only
  rw [if_neg (by simp only [MAX_ASCII_CODE_POINT]; omega)]
  simp only [utf8_char_width_3 0xED (by omega) (by omega),
    cont_of_range b2 (by omega) (by omega), hc3]
  norm_num
  rw [if_neg (by simp), if_neg (by omega), if_pos (show 160 ≤ b2 ∧ b2 ≤ 175 by omega)]

theorem decodeSlow_pair (b2 b3 f5 b6 : Nat) (h2 : 0xA0 ≤ b2) (h2b : b2 ≤ 0xAF)
    (hc3 : is_continuation_byte b3 = true) (h5 : 0xB0 ≤ f5) (h5b : f5 ≤ 0xBF)
    (hc6 : is_continuation_byte b6 = true) (l : List Nat) :
    decodeSlow (0xED :: b2 :: b3 :: 0xED :: f5 :: b6 :: l)
      = (decodeSlow l).map (fun tail => decode_surrogate_pair b2 b3 f5 b6 ++ tail) := by
  rw [decodeSlow_pair_step b2 b3 h2 h2b hc3]
  dsimp only
  simp only [hc6, cont_of_range f5 (by omega) (by omega)]
  norm_num
  omega

/-- The slow decoder maps each CESU-8-encoded scalar chunk to its UTF-8 form. -/
theorem decodeSlow_cesu8Char (c : Nat) (hc : IsScalar c) (l : List Nat) :
    decodeSlow (cesu8EncodeChar c ++ l)
      = (decodeSlow l).map (fun tail => utf8EncodeChar c ++ tail) := by
  obtain ⟨hlt, hsur⟩ := hc
  by_cases h1 : c < 0x80
  · rw [cec_bmp c (by omega), uec_ascii c h1]
    simp [decodeSlow_ascii c (by omega) l]
  · by_cases h2 : c < 0x800
    · rw [cec_bmp c (by omega), uec_two c (by omega) h2]
      rw [show ([0xC0 + c / 64, 0x80 + c % 64] ++ l) = (0xC0 + c / 64) :: (0x80 + c % 64) :: l by simp]
      rw [decodeSlow_two (0xC0 + c / 64) (0x80 + c % 64) (by omega) (by omega)
        (cont_of_range _ (by omega) (by omega)) l]
      simp
    · by_cases h3 : c < 0x10000
      · rw [cec_bmp c (by omega), uec_three c (by omega) h3]
        rw [show ([0xE0 + c / 4096, 0x80 + c / 64 % 64, 0x80 + c % 64] ++ l)
          = (0xE0 + c / 4096) :: (0x80 + c / 64 % 64) :: (0x80 + c % 64) :: l by simp]
        rw [decodeSlow_three (0xE0 + c / 4096) (0x80 + c / 64 % 64) (0x80 + c % 64)
          (by omega) (by omega)
          (cont_of_range _ (by omega) (by omega)) (cont_of_range _ (by omega) (by omega))
          (by omega) l]
        simp
      · rw [cec_supp c (by omega), uec_four c (by omega)]
        rw [show ([0xED, 0xA0 + (c - 0x10000) / 1024 / 64, 0x80 + (c - 0x10000) / 1024 % 64,
             0xED, 0xB0 + (c - 0x10000) % 1024 / 64, 0x80 + (c - 0x10000) % 1024 % 64] ++ l)
          = 0xED :: (0xA0 + (c - 0x10000) / 1024 / 64) :: (0x80 + (c - 0x10000) / 1024 % 64)
            :: 0xED :: (0xB0 + (c - 0x10000) % 1024 / 64) :: (0x80 + (c - 0x10000) % 1024 % 64)
            :: l by simp]
        rw [decodeSlow_pair _ _ _ _ (by omega) (by omega)
          (cont_of_range _ (by omega) (by omega)) (by omega) (by omega)
          (cont_of_range _ (by omega) (by omega)) l]
        rw [decode_surrogate_pair_eq _ _ _ _ (by omega) (by omega) (by omega) (by omega)
          (by omega) (by omega) (by omega) (by omega)]
        have harg : 0x10000
            + (64 * (0xA0 + (c - 0x10000) / 1024 / 64 - 0xA0)
              + (0x80 + (c - 0x10000) / 1024 % 64 - 0x80)) * 1024
            + (64 * (0xB0 + (c - 0x10000) % 1024 / 64 - 0xB0)
              + (0x80 + (c - 0x10000) % 1024 % 64 - 0x80)) = c := by
          omega
        rw [harg]
        rw [uec_four c (by omega)]

/-! ### Stepping behaviour of strict UTF-8 validation -/

theorem uv_ascii (b : Nat) (h : b ≤ 0x7F) (l : List Nat) :
    utf8Valid (b :: l) = utf8Valid l := by
  rw [utf8Valid.eq_def]
  dsimp only
  rw [if_pos (by omega)]

theorem uv_two (b b2 : Nat) (h1 : 0xC2 ≤ b) (h2 : b ≤ 0xDF)
    (hb2 : 0x80 ≤ b2 ∧ b2 ≤ 0xBF) (l : List Nat) :
    utf8Valid (b :: b2 :: l) = utf8Valid l := by
  rw [utf8Valid.eq_def]
  dsimp only
  rw [if_neg (by omega), if_pos (by omega), if_pos hb2]

theorem uv_three (b b2 b3 : Nat) (h1 : 0xE0 ≤ b) (h2 : b ≤ 0xEF)
    (hg : ((b = 0xE0 ∧ 0xA0 ≤ b2 ∧ b2 ≤ 0xBF)
        ∨ (0xE1 ≤ b ∧ b ≤ 0xEC ∧ 0x80 ≤ b2 ∧ b2 ≤ 0xBF)
        ∨ (b = 0xED ∧ 0x80 ≤ b2 ∧ b2 ≤ 0x9F)
        ∨ (0xEE ≤ b ∧ b ≤ 0xEF ∧ 0x80 ≤ b2 ∧ b2 ≤ 0xBF))
        ∧ 0x80 ≤ b3 ∧ b3 ≤ 0xBF) (l : List Nat) :
    utf8Valid (b :: b2 :: b3 :: l) = utf8Valid l := by
  rw [utf8Valid.eq_def]
  dsimp only
  rw [if_neg (by omega), if_neg (by omega), if_pos (by omega), if_pos hg]

theorem uv_four (b b2 b3 b4 : Nat) (h1 : 0xF0 ≤ b) (h2 : b ≤ 0xF4)
    (hg : ((b = 0xF0 ∧ 0x90 ≤ b2 ∧ b2 ≤ 0xBF)
        ∨ (0xF1 ≤ b ∧ b ≤ 0xF3 ∧ 0x80 ≤ b2 ∧ b2 ≤ 0xBF)
        ∨ (b = 0xF4 ∧ 0x80 ≤ b2 ∧ b2 ≤ 0x8F))
        ∧ 0x80 ≤ b3 ∧ b3 ≤ 0xBF ∧ 0x80 ≤ b4 ∧ b4 ≤ 0xBF) (l : List Nat) :
    utf8Valid (b :: b2 :: b3 :: b4 :: l) = utf8Valid l := by
  rw [utf8Valid.eq_def]
  dsimp only
  rw [if_neg (by omega), if_neg (by omega), if_neg (by omega), if_pos (by omega), if_pos hg]

theorem uv_ED_surr (b2 : Nat) (h : 0xA0 ≤ b2) (l : List Nat) :
    utf8Valid (0xED :: b2 :: l) = false := by
  rw [utf8Valid.eq_def]
  dsimp only
  rw [if_neg (by omega), if_neg (by omega)]
  cases l with
  | nil => rfl
  | cons b3 l2 =>
    dsimp only
    rw [if_pos (by omega), if_neg (by omega)]

theorem utf8Valid_utf8Char (c : Nat) (hc : IsScalar c) (l : List Nat) :
    utf8Valid (utf8EncodeChar c ++ l) = utf8Valid l := by
  obtain ⟨hlt, hsur⟩ := hc
  by_cases h1 : c < 0x80
  · rw [uec_ascii c h1]
    exact uv_ascii c (by omega) l
  · by_cases h2 : c < 0x800
    · rw [uec_two c (by omega) h2]
      exact uv_two _ _ (by omega) (by omega) (by omega) l
    · by_cases h3 : c < 0x10000
      · rw [uec_three c (by omega) h3]
        exact uv_three _ _ _ (by omega) (by omega) (by omega) l
      · rw [uec_four c (by omega)]
        exact uv_four _ _ _ _ (by omega) (by omega) (by omega) l

theorem utf8Valid_cesu8_supp (c : Nat) (h : 0x10000 ≤ c) (l : List Nat) :
    utf8Valid (cesu8EncodeChar c ++ l) = false := by
  rw [cec_supp c h]
  exact uv_ED_surr _ (by omega) _

/-! ### Stepping behaviour of the validity scanner -/

theorem iv_utf8Char (c : Nat) (hc : IsScalar c) (l : List Nat) :
    is_valid (utf8EncodeChar c ++ l) = if c < 0x10000 then is_valid l else false := by
  obtain ⟨hlt, hsur⟩ := hc
  by_cases h1 : c < 0x80
  · rw [uec_ascii c h1, if_pos (by omega)]
    dsimp only [List.cons_append, List.nil_append]
    rw [is_valid.eq_2]
    simp only [not_cont_low c (by omega), utf8_char_width_1 c (by omega)]
    norm_num [CESU8_MAX_CHAR_WIDTH]
  · by_cases h2 : c < 0x800
    · rw [uec_two c (by omega) h2, if_pos (by omega)]
      dsimp only [List.cons_append, List.nil_append]
      rw [is_valid.eq_2]
      simp only [not_cont_high (0xC0 + c / 64) (by omega) (by omega),
        utf8_char_width_2 (0xC0 + c / 64) (by omega) (by omega)]
      norm_num [CESU8_MAX_CHAR_WIDTH]
      rw [is_valid.eq_2]
      simp only [cont_of_range (0x80 + c % 64) (by omega) (by omega)]
      norm_num
    · by_cases h3 : c < 0x10000
      · rw [uec_three c (by omega) h3, if_pos (by omega)]
        dsimp only [List.cons_append, List.nil_append]
        rw [is_valid.eq_2]
        simp only [not_cont_high (0xE0 + c / 4096) (by omega) (by omega),
          utf8_char_width_3 (0xE0 + c / 4096) (by omega) (by omega)]
        norm_num [CESU8_MAX_CHAR_WIDTH]
        rw [is_valid.eq_2]
        simp only [cont_of_range (0x80 + c / 64 % 64) (by omega) (by omega)]
        norm_num
        rw [is_valid.eq_2]
        simp only [cont_of_range (0x80 + c % 64) (by omega) (by omega)]
        norm_num
      · rw [uec_four c (by omega), if_neg (by omega)]
        dsimp only [List.cons_append, List.nil_append]
        rw [is_valid.eq_2]
        simp only [not_cont_high (0xF0 + c / 0x40000) (by omega) (by omega),
          utf8_char_width_4 (0xF0 + c / 0x40000) (by omega) (by omega)]
        norm_num [CESU8_MAX_CHAR_WIDTH]

/-! ### Stepping behaviour of the slow encoder -/

theorem es_ascii (b : Nat) (h : b ≤ 0x7F) (l : List Nat) :
    encodeSlow (b :: l) = (encodeSlow l).map (fun tail => b :: tail) := by
  rw [encodeSlow.eq_def]
  dsimp only
  rw [if_pos (by simp only [MAX_ASCII_CODE_POINT]; omega)]

theorem es_two (b b2 : Nat) (h1 : 0xC2 ≤ b) (h2 : b ≤ 0xDF) (l : List Nat) :
    encodeSlow (b :: b2 :: l) = (encodeSlow l).map (fun tail => b :: b2 :: tail) := by
  rw [encodeSlow.eq_def]
  dsimp only
  rw [if_neg (by simp only [MAX_ASCII_CODE_POINT]; omega)]
  simp only [utf8_char_width_2 b h1 h2]
  norm_num
  simp

theorem es_three (b b2 b3 : Nat) (h1 : 0xE0 ≤ b) (h2 : b ≤ 0xEF) (l : List Nat) :
    encodeSlow (b :: b2 :: b3 :: l)
      = (encodeSlow l).map (fun tail => b :: b2 :: b3 :: tail) := by
  rw [encodeSlow.eq_def]
  dsimp only
  rw [if_neg (by simp only [MAX_ASCII_CODE_POINT]; omega)]
  simp only [utf8_char_width_3 b h1 h2]
  norm_num
  simp

theorem es_four (b b2 b3 b4 : Nat) (h1 : 0xF0 ≤ b) (h2 : b ≤ 0xF4) (l : List Nat) :
    encodeSlow (b :: b2 :: b3 :: b4 :: l)
      = (encodeSlow l).map (fun tail =>
          encode_surrogate_pair (to_surrogate_pair (utf8DecodeFour b b2 b3 b4)) ++ tail) := by
  rw [encodeSlow.eq_def]
  dsimp only
  rw [if_neg (by simp only [MAX_ASCII_CODE_POINT]; omega)]
  simp only [utf8_char_width_4 b h1 h2]
  norm_num
  simp

/-- The surrogate-pair re-encoding of a supplementary scalar's 4-byte
sequence is exactly its CESU-8 chunk. -/
theorem encode_pair_of_utf8DecodeFour (c : Nat) (h1 : 0x10000 ≤ c) (h2 : c < 0x110000) :
    encode_surrogate_pair (to_surrogate_pair
        (utf8DecodeFour (0xF0 + c / 0x40000) (0x80 + c / 4096 % 64)
          (0x80 + c / 64 % 64) (0x80 + c % 64)))
      = cesu8EncodeChar c := by
  have hd4 : utf8DecodeFour (0xF0 + c / 0x40000) (0x80 + c / 4096 % 64)
      (0x80 + c / 64 % 64) (0x80 + c % 64) = c := by
    simp only [utf8DecodeFour]
    omega
  rw [hd4, to_surrogate_pair_eq c h2]
  unfold encode_surrogate_pair
  dsimp only
  rw [encode_surrogate_eq _ (by omega) (by omega), encode_surrogate_eq _ (by omega) (by omega)]
  rw [cec_supp c h1]
  simp only [List.cons_append, List.nil_append, List.cons.injEq, and_true, true_and]
  omega

theorem encodeSlow_utf8Char (c : Nat) (hc : IsScalar c) (l : List Nat) :
    encodeSlow (utf8EncodeChar c ++ l)
      = (encodeSlow l).map (fun tail => cesu8EncodeChar c ++ tail) := by
  obtain ⟨hlt, hsur⟩ := hc
  by_cases h1 : c < 0x80
  · rw [uec_ascii c h1, cec_bmp c (by omega), uec_ascii c h1]
    dsimp only [List.cons_append, List.nil_append]
    rw [es_ascii c (by omega) l]
  · by_cases h2 : c < 0x800
    · rw [uec_two c (by omega) h2, cec_bmp c (by omega), uec_two c (by omega) h2]
      dsimp only [List.cons_append, List.nil_append]
      rw [es_two _ _ (by omega) (by omega) l]
    · by_cases h3 : c < 0x10000
      · rw [uec_three c (by omega) h3, cec_bmp c (by omega), uec_three c (by omega) h3]
        dsimp only [List.cons_append, List.nil_append]
        rw [es_three _ _ _ (by omega) (by omega) l]
      · rw [uec_four c (by omega)]
        dsimp only [List.cons_append, List.nil_append]
        rw [es_four _ _ _ _ (by omega) (by omega) l]
        rw [encode_pair_of_utf8DecodeFour c (by omega) (by omega)]

/-! ### Stepping behaviour of the length scanner -/

theorem el_ascii (b : Nat) (h : b ≤ 0x7F) (l : List Nat) :
    encoded_len (b :: l) = (encoded_len l).map (fun n => n + 1) := by
  rw [encoded_len.eq_def]
  dsimp only
  rw [if_pos (by simp only [MAX_ASCII_CODE_POINT]; omega)]

theorem el_two (b b2 : Nat) (h1 : 0xC2 ≤ b) (h2 : b ≤ 0xDF) (l : List Nat) :
    encoded_len (b :: b2 :: l) = (encoded_len l).map (fun n => n + 2) := by
  rw [encoded_len.eq_def]
  dsimp only
  rw [if_neg (by simp only [MAX_ASCII_CODE_POINT]; omega)]
  simp only [utf8_char_width_2 b h1 h2]
  norm_num
  simp

theorem el_three (b b2 b3 : Nat) (h1 : 0xE0 ≤ b) (h2 : b ≤ 0xEF) (l : List Nat) :
    encoded_len (b :: b2 :: b3 :: l) = (encoded_len l).map (fun n => n + 3) := by
  rw [encoded_len.eq_def]
  dsimp only
  rw [if_neg (by simp only [MAX_ASCII_CODE_POINT]; omega)]
  simp only [utf8_char_width_3 b h1 h2]
  norm_num
  simp

theorem el_four (b b2 b3 b4 : Nat) (h1 : 0xF0 ≤ b) (h2 : b ≤ 0xF4) (l : List Nat) :
    encoded_len (b :: b2 :: b3 :: b4 :: l) = (encoded_len l).map (fun n => n + 6) := by
  rw [encoded_len.eq_def]
  dsimp only
  rw [if_neg (by simp only [MAX_ASCII_CODE_POINT]; omega)]
  simp only [utf8_char_width_4 b h1 h2]
  norm_num
  simp

theorem el_utf8Char (c : Nat) (hc : IsScalar c) (l : List Nat) :
    encoded_len (utf8EncodeChar c ++ l)
      = (encoded_len l).map (fun n => n + (cesu8EncodeChar c).length) := by
  obtain ⟨hlt, hsur⟩ := hc
  by_cases h1 : c < 0x80
  · rw [uec_ascii c h1, cec_bmp c (by omega), uec_ascii c h1]
    dsimp only [List.cons_append, List.nil_append, List.length_cons, List.length_nil]
    exact el_ascii c (by omega) l
  · by_cases h2 : c < 0x800
    · rw [uec_two c (by omega) h2, cec_bmp c (by omega), uec_two c (by omega) h2]
      dsimp only [List.cons_append, List.nil_append, List.length_cons, List.length_nil]
      exact el_two _ _ (by omega) (by omega) l
    · by_cases h3 : c < 0x10000
      · rw [uec_three c (by omega) h3, cec_bmp c (by omega), uec_three c (by omega) h3]
        dsimp only [List.cons_append, List.nil_append, List.length_cons, List.length_nil]
        exact el_three _ _ _ (by omega) (by omega) l
      · rw [uec_four c (by omega), cec_supp c (by omega)]
        dsimp only [List.cons_append, List.nil_append, List.length_cons, List.length_nil]
        exact el_four _ _ _ _ (by omega) (by omega) l

/-! ### Whole-string behaviour on well-formed input -/

theorem encodeSlow_utf8Encode (cs : List Nat) (hcs : ∀ c ∈ cs, IsScalar c) :
    encodeSlow (utf8Encode cs) = some (cesu8Encode cs) := by
  induction cs with
  | nil => rfl
  | cons c cs ih =>
    simp only [utf8Encode, cesu8Encode]
    rw [encodeSlow_utf8Char c (hcs c (by simp)) (utf8Encode cs)]
    rw [ih (fun x hx => hcs x (by simp [hx]))]
    rfl

theorem decodeSlow_cesu8Encode (cs : List Nat) (hcs : ∀ c ∈ cs, IsScalar c) :
    decodeSlow (cesu8Encode cs) = some (utf8Encode cs) := by
  induction cs with
  | nil => rfl
  | cons c cs ih =>
    simp only [utf8Encode, cesu8Encode]
    rw [decodeSlow_cesu8Char c (hcs c (by simp)) (cesu8Encode cs)]
    rw [ih (fun x hx => hcs x (by simp [hx]))]
    rfl

theorem utf8Valid_utf8Encode (cs : List Nat) (hcs : ∀ c ∈ cs, IsScalar c) :
    utf8Valid (utf8Encode cs) = true := by
  induction cs with
  | nil => rfl
  | cons c cs ih =>
    simp only [utf8Encode]
    rw [utf8Valid_utf8Char c (hcs c (by simp)) (utf8Encode cs)]
    exact ih (fun x hx => hcs x (by simp [hx]))

theorem is_valid_utf8Encode (cs : List Nat) (hcs : ∀ c ∈ cs, IsScalar c) :
    is_valid (utf8Encode cs) = true ↔ ∀ c ∈ cs, c < 0x10000 := by
  induction cs with
  | nil => simp [is_valid]
  | cons c cs ih =>
    simp only [utf8Encode]
    rw [iv_utf8Char c (hcs c (by simp)) (utf8Encode cs)]
    by_cases h : c < 0x10000
    · rw [if_pos h]
      rw [ih (fun x hx => hcs x (by simp [hx]))]
      simp [h]
    · rw [if_neg h]
      simp [h]

theorem cesu8Encode_eq_utf8Encode (cs : List Nat) (hbmp : ∀ c ∈ cs, c < 0x10000) :
    cesu8Encode cs = utf8Encode cs := by
  induction cs with
  | nil => rfl
  | cons c cs ih =>
    simp only [utf8Encode, cesu8Encode]
    rw [cec_bmp c (hbmp c (by simp)), ih (fun x hx => hbmp x (by simp [hx]))]

theorem utf8Valid_cesu8Encode (cs : List Nat) (hcs : ∀ c ∈ cs, IsScalar c) :
    utf8Valid (cesu8Encode cs) = true ↔ ∀ c ∈ cs, c < 0x10000 := by
  induction cs with
  | nil => simp [cesu8Encode, utf8Valid]
  | cons c cs ih =>
    simp only [cesu8Encode]
    by_cases h : c < 0x10000
    · rw [cec_bmp c h, utf8Valid_utf8Char c (hcs c (by simp)) (cesu8Encode cs)]
      rw [ih (fun x hx => hcs x (by simp [hx]))]
      simp [h]
    · rw [utf8Valid_cesu8_supp c (by omega) (cesu8Encode cs)]
      simp [h]

theorem encoded_len_utf8Encode (cs : List Nat) (hcs : ∀ c ∈ cs, IsScalar c) :
    encoded_len (utf8Encode cs) = some (cesu8Encode cs).length := by
  induction cs with
  | nil => rfl
  | cons c cs ih =>
    simp only [utf8Encode, cesu8Encode]
    rw [el_utf8Char c (hcs c (by simp)) (utf8Encode cs)]
    rw [ih (fun x hx => hcs x (by simp [hx]))]
    simp [List.length_append]
    omega

theorem utf8Encode_length_le (cs : List Nat) :
    (utf8Encode cs).length ≤ (cesu8Encode cs).length := by
  induction cs with
  | nil => simp [utf8Encode, cesu8Encode]
  | cons c cs ih =>
    simp only [utf8Encode, cesu8Encode, List.length_append]
    have hch : (utf8EncodeChar c).length ≤ (cesu8EncodeChar c).length := by
      by_cases h3 : c < 0x10000
      · rw [cec_bmp c h3]
      · rw [cec_supp c (by omega), uec_four c (by omega)]
        simp
    omega

theorem utf8Encode_length_lt (cs : List Nat) (hsupp : ∃ c ∈ cs, 0x10000 ≤ c) :
    (utf8Encode cs).length < (cesu8Encode cs).length := by
  induction cs with
  | nil => simp at hsupp
  | cons c cs ih =>
    simp only [utf8Encode, cesu8Encode, List.length_append]
    rcases hsupp with ⟨d, hd, hdsupp⟩
    rcases List.mem_cons.mp hd with rfl | hdtail
    · have h4 : (utf8EncodeChar d).length = 4 := by
        rw [uec_four d hdsupp]
        rfl
      have h6 : (cesu8EncodeChar d).length = 6 := by
        rw [cec_supp d hdsupp]
        rfl
      have := utf8Encode_length_le cs
      omega
    · have := ih ⟨d, hdtail, hdsupp⟩
      have hch : (utf8EncodeChar c).length ≤ (cesu8EncodeChar c).length := by
        by_cases h3 : c < 0x10000
        · rw [cec_bmp c h3]
        · rw [cec_supp c (by omega), uec_four c (by omega)]
          simp
      omega

/-- The CESU-8 length of a string is the sum of its per-character widths:
the literal UTF-8 width below `0x10000` and 6 for supplementary scalars. -/
theorem cesu8Encode_length (cs : List Nat) :
    (cesu8Encode cs).length
      = (cs.map (fun c => if 0x10000 ≤ c then 6 else (utf8EncodeChar c).length)).sum := by
  induction cs with
  | nil => rfl
  | cons c cs ih =>
    simp only [cesu8Encode, List.length_append, List.map_cons, List.sum_cons, ih]
    by_cases h : 0x10000 ≤ c
    · rw [if_pos h, cec_supp c h]
      rfl
    · rw [if_neg h, cec_bmp c (by omega)]

/-- Claim C1: for every well-formed UTF-8 string (given as its list of
Unicode scalar values, with byte form `utf8Encode cs`), `encode` succeeds
and `decode` applied to the encoded bytes succeeds and returns exactly the
original byte form, i.e. `decode (encode s) = s`. -/
theorem C1_decode_encode_roundtrip (cs : List Nat) (hcs : ∀ c ∈ cs, IsScalar c) :
    ∃ ec dc, encode (utf8Encode cs) = some ec
      ∧ decode (Cow.val ec) = .ok dc ∧ Cow.val dc = utf8Encode cs := by
  unfold encode
  by_cases hv : is_valid (utf8Encode cs) = true
  · rw [if_pos hv]
    refine ⟨.borrowed (utf8Encode cs), .borrowed (utf8Encode cs), rfl, ?_, rfl⟩
    show decode (utf8Encode cs) = _
    unfold decode
    rw [if_pos (utf8Valid_utf8Encode cs hcs)]
  · rw [if_neg hv]
    rw [encodeSlow_utf8Encode cs hcs]
    refine ⟨.owned (cesu8Encode cs), .owned (utf8Encode cs), rfl, ?_, rfl⟩
    show decode (cesu8Encode cs) = _
    unfold decode
    have hsupp : ¬ ∀ c ∈ cs, c < 0x10000 :=
      fun h => hv ((is_valid_utf8Encode cs hcs).mpr h)
    have hnv : ¬ utf8Valid (cesu8Encode cs) = true :=
      fun h => hsupp ((utf8Valid_cesu8Encode cs hcs).mp h)
    rw [if_neg hnv, decodeSlow_cesu8Encode cs hcs]

theorem C1_witness : ∃ ec dc, encode (utf8Encode [0x48, 0x10437]) = some ec
    ∧ decode (Cow.val ec) = .ok dc ∧ Cow.val dc = utf8Encode [0x48, 0x10437] :=
  C1_decode_encode_roundtrip [0x48, 0x10437] (by decide)

/-- Claim C2: for every well-formed UTF-8 string, `encode` succeeds and
the byte length of its output equals `encoded_len` of the string. -/
theorem C2_encoded_len_eq_encode_length (cs : List Nat) (hcs : ∀ c ∈ cs, IsScalar c) :
    ∃ ec, encode (utf8Encode cs) = some ec
      ∧ encoded_len (utf8Encode cs) = some (Cow.val ec).length := by
  unfold encode
  by_cases hv : is_valid (utf8Encode cs) = true
  · rw [if_pos hv]
    refine ⟨.borrowed (utf8Encode cs), rfl, ?_⟩
    rw [encoded_len_utf8Encode cs hcs]
    rw [cesu8Encode_eq_utf8Encode cs ((is_valid_utf8Encode cs hcs).mp hv)]
    rfl
  · rw [if_neg hv]
    rw [encodeSlow_utf8Encode cs hcs]
    exact ⟨.owned (cesu8Encode cs), rfl, encoded_len_utf8Encode cs hcs⟩

theorem C2_witness : ∃ ec, encode (utf8Encode [0x24, 0xA2, 0x20AC, 0x10348]) = some ec
    ∧ encoded_len (utf8Encode [0x24, 0xA2, 0x20AC, 0x10348]) = some (Cow.val ec).length :=
  C2_encoded_len_eq_encode_length [0x24, 0xA2, 0x20AC, 0x10348] (by decide)

/-- Claim C3: `is_valid` holds for a well-formed string exactly when
`encode` takes the borrowed zero-copy path returning the input bytes
unchanged; and when `is_valid` is false, the bytes `encode` produces
differ from the input's byte form. -/
theorem C3_is_valid_iff_zero_copy (cs : List Nat) (hcs : ∀ c ∈ cs, IsScalar c) :
    (is_valid (utf8Encode cs) = true
      ↔ encode (utf8Encode cs) = some (.borrowed (utf8Encode cs)))
    ∧ (is_valid (utf8Encode cs) = false →
        ∀ ec, encode (utf8Encode cs) = some ec → Cow.val ec ≠ utf8Encode cs) := by
  constructor
  · constructor
    · intro hv
      unfold encode
      rw [if_pos hv]
    · intro he
      by_contra hv
      unfold encode at he
      rw [if_neg hv, encodeSlow_utf8Encode cs hcs] at he
      simp at he
  · intro hv ec he
    unfold encode at he
    rw [if_neg (by simp [hv]), encodeSlow_utf8Encode cs hcs] at he
    have hec : ec = .owned (cesu8Encode cs) := by
      simpa using he.symm
    subst hec
    show cesu8Encode cs ≠ utf8Encode cs
    have hsupp : ∃ c ∈ cs, 0x10000 ≤ c := by
      have h1 : ¬ ∀ c ∈ cs, c < 0x10000 := by
        intro hall
        rw [(is_valid_utf8Encode cs hcs).mpr hall] at hv
        exact absurd hv (by simp)
      push_neg at h1
      obtain ⟨c, hcmem, hcge⟩ := h1
      exact ⟨c, hcmem, by omega⟩
    have := utf8Encode_length_lt cs hsupp
    intro heq
    rw [heq] at this
    omega

theorem C3_witness :
    (is_valid (utf8Encode [0x10401]) = true
      ↔ encode (utf8Encode [0x10401]) = some (.borrowed (utf8Encode [0x10401])))
    ∧ (is_valid (utf8Encode [0x10401]) = false →
        ∀ ec, encode (utf8Encode [0x10401]) = some ec
          → Cow.val ec ≠ utf8Encode [0x10401]) :=
  C3_is_valid_iff_zero_copy [0x10401] (by decide)

/-- Claim C4: every byte sequence that is valid UTF-8 (including 4-byte
supplementary sequences and the empty sequence) decodes successfully via
the fast path, returning exactly those bytes borrowed and unmodified. -/
theorem C4_decode_valid_utf8_borrowed (bs : List Nat) (h : utf8Valid bs = true) :
    decode bs = .ok (.borrowed bs) := by
  unfold decode
  rw [if_pos h]

theorem C4_witness :
    decode [] = .ok (.borrowed [])
    ∧ decode [0xF0, 0x90, 0x90, 0xB7] = .ok (.borrowed [0xF0, 0x90, 0x90, 0xB7]) :=
  ⟨C4_decode_valid_utf8_borrowed [] (by decide),
   C4_decode_valid_utf8_borrowed [0xF0, 0x90, 0x90, 0xB7] (by decide)⟩

/-- Claim C9: for every well-formed UTF-8 string, `encoded_len` succeeds
and equals the sum over the string's characters of 1 for ASCII, the
literal UTF-8 width (2 or 3) for other BMP characters, and 6 for each
supplementary (4-byte) character. -/
theorem C9_encoded_len_sum (cs : List Nat) (hcs : ∀ c ∈ cs, IsScalar c) :
    encoded_len (utf8Encode cs)
      = some ((cs.map (fun c =>
          if 0x10000 ≤ c then 6 else (utf8EncodeChar c).length)).sum) := by
  rw [encoded_len_utf8Encode cs hcs, cesu8Encode_length cs]

theorem C9_witness : encoded_len (utf8Encode [0x24, 0xA2, 0x20AC, 0x10348])
    = some (([0x24, 0xA2, 0x20AC, 0x10348].map (fun c =>
        if 0x10000 ≤ c then 6 else (utf8EncodeChar c).length)).sum) :=
  C9_encoded_len_sum [0x24, 0xA2, 0x20AC, 0x10348] (by decide)

/-- The reject arm of the 3-byte classification: a 3-byte sequence whose
(lead, second) pair is in neither the ordinary strict-UTF-8 ranges nor the
high-surrogate range `(0xED, 0xA0–0xAF)` makes the slow decoder fail. -/
theorem decodeSlow_three_reject (b b2 b3 : Nat) (h1 : 0xE0 ≤ b) (h2 : b ≤ 0xEF)
    (hc2 : is_continuation_byte b2 = true) (hc3 : is_continuation_byte b3 = true)
    (hord : ¬((b = 0xE0 ∧ 0xA0 ≤ b2 ∧ b2 ≤ 0xBF)
        ∨ (0xE1 ≤ b ∧ b ≤ 0xEC ∧ 0x80 ≤ b2 ∧ b2 ≤ 0xBF)
        ∨ (b = 0xED ∧ 0x80 ≤ b2 ∧ b2 ≤ 0x9F)
        ∨ (0xEE ≤ b ∧ b ≤ 0xEF ∧ 0x80 ≤ b2 ∧ b2 ≤ 0xBF)))
    (hpair : ¬(b = 0xED ∧ 0xA0 ≤ b2 ∧ b2 ≤ 0xAF)) (l : List Nat) :
    decodeSlow (b :: b2 :: b3 :: l) = none := by
  rw [decodeSlow.eq_def]
  dsimp only
  rw [if_neg (by simp only [MAX_ASCII_CODE_POINT]; omega)]
  simp only [utf8_char_width_3 b h1 h2, hc2, hc3]
  norm_num
  rw [if_neg hord, if_neg hpair]
  simp

/-- Claim C7: at a high-surrogate 3-byte sequence (`0xED`, second byte in
`0xA0`–`0xAF`, a continuation byte), the slow decoder proceeds only when
the next three bytes are exactly `0xED`, a continuation byte in
`0xB0`–`0xBF`, and one more continuation byte; with fewer than three
following bytes it fails, and whenever the fourth byte is any value other
than `0xED` (including the other 3-byte lead bytes) or the fifth byte lies
outside `0xB0`–`0xBF` it fails. -/
theorem C7_low_surrogate_requirements (s t : Nat) (rest : List Nat)
    (hs1 : 0xA0 ≤ s) (hs2 : s ≤ 0xAF) (ht : is_continuation_byte t = true) :
    (∀ f4 f5 f6 r, rest = f4 :: f5 :: f6 :: r →
      (decodeSlow (0xED :: s :: t :: rest) ≠ none →
        f4 = 0xED ∧ is_continuation_byte f5 = true ∧ 0xB0 ≤ f5 ∧ f5 ≤ 0xBF
          ∧ is_continuation_byte f6 = true)
      ∧ (f4 = 0xED → is_continuation_byte f5 = true → 0xB0 ≤ f5 → f5 ≤ 0xBF →
          is_continuation_byte f6 = true →
          decodeSlow (0xED :: s :: t :: rest)
            = (decodeSlow r).map (fun tail => decode_surrogate_pair s t f5 f6 ++ tail)))
    ∧ (rest.length < 3 → decodeSlow (0xED :: s :: t :: rest) = none) := by
  constructor
  · intro f4 f5 f6 r hrest
    subst hrest
    rw [decodeSlow_pair_step s t hs1 hs2 ht]
    dsimp only
    constructor
    · intro hne
      by_cases h4 : f4 = 0xED
      · rw [if_neg (by simp [h4])] at hne
        by_cases h5 : is_continuation_byte f5 = true
        · rw [if_neg (by simp [h5])] at hne
          by_cases h5r : 0xB0 ≤ f5 ∧ f5 ≤ 0xBF
          · rw [if_neg (by simp [h5r])] at hne
            by_cases h6 : is_continuation_byte f6 = true
            · exact ⟨h4, h5, h5r.1, h5r.2, h6⟩
            · rw [if_pos (by simp [h6])] at hne
              exact absurd rfl hne
          · rw [if_pos h5r] at hne
            exact absurd rfl hne
        · rw [if_pos (by simp [h5])] at hne
          exact absurd rfl hne
      · rw [if_pos h4] at hne
        exact absurd rfl hne
    · intro h4 h5 h5a h5b h6
      rw [if_neg (by simp [h4]), if_neg (by simp [h5]), if_neg (by omega),
        if_neg (by simp [h6])]
  · intro hlen
    rw [decodeSlow_pair_step s t hs1 hs2 ht]
    rcases rest with _ | ⟨a, _ | ⟨b, _ | ⟨c, r⟩⟩⟩
    · rfl
    · rfl
    · rfl
    · exact absurd hlen (by simp)

theorem C7_witness :
    ((∀ f4 f5 f6 r, ([0xEE, 0xB0, 0x81] : List Nat) = f4 :: f5 :: f6 :: r →
      (decodeSlow (0xED :: 0xA0 :: 0x81 :: [0xEE, 0xB0, 0x81]) ≠ none →
        f4 = 0xED ∧ is_continuation_byte f5 = true ∧ 0xB0 ≤ f5 ∧ f5 ≤ 0xBF
          ∧ is_continuation_byte f6 = true)
      ∧ (f4 = 0xED → is_continuation_byte f5 = true → 0xB0 ≤ f5 → f5 ≤ 0xBF →
          is_continuation_byte f6 = true →
          decodeSlow (0xED :: 0xA0 :: 0x81 :: [0xEE, 0xB0, 0x81])
            = (decodeSlow r).map (fun tail => decode_surrogate_pair 0xA0 0x81 f5 f6 ++ tail)))
    ∧ (([0xEE, 0xB0, 0x81] : List Nat).length < 3 →
        decodeSlow (0xED :: 0xA0 :: 0x81 :: [0xEE, 0xB0, 0x81]) = none)) :=
  C7_low_surrogate_requirements 0xA0 0x81 [0xEE, 0xB0, 0x81] (by decide) (by decide) (by decide)

/-- Claim C8, counterexample: the claim would admit any second byte in
`0xA0`–`0xBF` after lead `0xED` as the first half of a surrogate pair, so
on `ED B0 80 ED B0 80` (a low-surrogate-shaped sequence followed by a
well-formed low surrogate) it predicts a successful decode; the code
rejects the sequence outright. -/
theorem C8_counterexample :
    decode [0xED, 0xB0, 0x80, 0xED, 0xB0, 0x80] = .error ⟨⟩
      ∧ decodeSlow [0xED, 0xB0, 0x80, 0xED, 0xB0, 0x80] = none := by
  constructor
  · rfl
  · rfl

/-- Claim C8, amended: the 3-byte validity ranges mirror strict UTF-8,
except that only `(0xED, 0xA0–0xAF)` — the high-surrogate range — is
permitted as the first half of a CESU-8 surrogate pair; `(0xED,
0xB0–0xBF)` and every other non-strict combination is rejected. -/
theorem C8_three_byte_ranges (first second third : Nat) (rest : List Nat)
    (h1 : 0xE0 ≤ first) (h2 : first ≤ 0xEF)
    (hs : 0x80 ≤ second) (hs2 : second ≤ 0xBF)
    (ht : 0x80 ≤ third) (ht2 : third ≤ 0xBF) :
    decodeSlow (first :: second :: third :: rest)
      = if (first = 0xE0 ∧ 0xA0 ≤ second) ∨ (0xE1 ≤ first ∧ first ≤ 0xEC)
          ∨ (first = 0xED ∧ second ≤ 0x9F) ∨ 0xEE ≤ first then
          (decodeSlow rest).map (fun tail => first :: second :: third :: tail)
        else if first = 0xED ∧ 0xA0 ≤ second ∧ second ≤ 0xAF then
          (match rest with
            | f4 :: f5 :: f6 :: r =>
              if f4 ≠ 0xED then none
              else if ¬ is_continuation_byte f5 then none
              else if ¬(0xB0 ≤ f5 ∧ f5 ≤ 0xBF) then none
              else if ¬ is_continuation_byte f6 then none
              else (decodeSlow r).map (fun tail =>
                decode_surrogate_pair second third f5 f6 ++ tail)
            | _ => none)
        else none := by
  have hc2 : is_continuation_byte second = true := cont_of_range second hs hs2
  have hc3 : is_continuation_byte third = true := cont_of_range third ht ht2
  by_cases hord : (first = 0xE0 ∧ 0xA0 ≤ second) ∨ (0xE1 ≤ first ∧ first ≤ 0xEC)
      ∨ (first = 0xED ∧ second ≤ 0x9F) ∨ 0xEE ≤ first
  · rw [if_pos hord]
    exact decodeSlow_three first second third h1 h2 hc2 hc3 (by omega) rest
  · rw [if_neg hord]
    by_cases hpair : first = 0xED ∧ 0xA0 ≤ second ∧ second ≤ 0xAF
    · rw [if_pos hpair]
      obtain ⟨he, hp1, hp2⟩ := hpair
      subst he
      exact decodeSlow_pair_step second third hp1 hp2 hc3 rest
    · rw [if_neg hpair]
      exact decodeSlow_three_reject first second third h1 h2 hc2 hc3 (by omega) hpair rest

theorem C8_witness :
    decodeSlow (0xED :: 0xB0 :: 0x80 :: [0xED, 0xB0, 0x80])
      = if (0xED = 0xE0 ∧ 0xA0 ≤ 0xB0) ∨ (0xE1 ≤ 0xED ∧ 0xED ≤ 0xEC)
          ∨ (0xED = 0xED ∧ 0xB0 ≤ 0x9F) ∨ 0xEE ≤ 0xED then
          (decodeSlow [0xED, 0xB0, 0x80]).map (fun tail => 0xED :: 0xB0 :: 0x80 :: tail)
        else if 0xED = 0xED ∧ 0xA0 ≤ 0xB0 ∧ 0xB0 ≤ 0xAF then
          (match [0xED, 0xB0, 0x80] with
            | f4 :: f5 :: f6 :: r =>
              if f4 ≠ 0xED then none
              else if ¬ is_continuation_byte f5 then none
              else if ¬(0xB0 ≤ f5 ∧ f5 ≤ 0xBF) then none
              else if ¬ is_continuation_byte f6 then none
              else (decodeSlow r).map (fun tail =>
                decode_surrogate_pair 0xB0 0x80 f5 f6 ++ tail)
            | _ => none)
        else none :=
  C8_three_byte_ranges 0xED 0xB0 0x80 [0xED, 0xB0, 0x80]
    (by decide) (by decide) (by decide) (by decide) (by decide) (by decide)

/-! ### Inversions of the byte classifiers and of the slow decoder -/

theorem width_one_iff (b : Nat) : utf8_char_width b = some 1 ↔ b ≤ 0x7F := by
  unfold utf8_char_width MAX_ASCII_CODE_POINT
  split_ifs <;> simp <;> omega

theorem width_two_iff (b : Nat) : utf8_char_width b = some 2 ↔ 0xC2 ≤ b ∧ b ≤ 0xDF := by
  unfold utf8_char_width MAX_ASCII_CODE_POINT
  split_ifs <;> simp <;> omega

theorem width_three_iff (b : Nat) : utf8_char_width b = some 3 ↔ 0xE0 ≤ b ∧ b ≤ 0xEF := by
  unfold utf8_char_width MAX_ASCII_CODE_POINT
  split_ifs <;> simp <;> omega

theorem width_four_iff (b : Nat) : utf8_char_width b = some 4 ↔ 0xF0 ≤ b ∧ b ≤ 0xF4 := by
  unfold utf8_char_width MAX_ASCII_CODE_POINT
  split_ifs <;> simp <;> omega

theorem width_none_iff (b : Nat) :
    utf8_char_width b = none ↔ ((0x7F < b ∧ b < 0xC2) ∨ 0xF4 < b) := by
  unfold utf8_char_width MAX_ASCII_CODE_POINT
  split_ifs <;> simp <;> omega

/-- Inversion: every successful step of the slow decoder is one of the
four chunk shapes (ASCII, 2-byte, ordinary 3-byte, surrogate pair). -/
theorem decodeSlow_cons_some (first : Nat) (rest out : List Nat)
    (h : decodeSlow (first :: rest) = some out) :
    (first ≤ 0x7F ∧ ∃ t, decodeSlow rest = some t ∧ out = first :: t)
    ∨ (∃ b2 r2 t, rest = b2 :: r2 ∧ 0xC2 ≤ first ∧ first ≤ 0xDF
        ∧ is_continuation_byte b2 = true
        ∧ decodeSlow r2 = some t ∧ out = first :: b2 :: t)
    ∨ (∃ b2 b3 r3 t, rest = b2 :: b3 :: r3 ∧ 0xE0 ≤ first ∧ first ≤ 0xEF
        ∧ is_continuation_byte b2 = true ∧ is_continuation_byte b3 = true
        ∧ ((first = 0xE0 ∧ 0xA0 ≤ b2 ∧ b2 ≤ 0xBF)
            ∨ (0xE1 ≤ first ∧ first ≤ 0xEC ∧ 0x80 ≤ b2 ∧ b2 ≤ 0xBF)
            ∨ (first = 0xED ∧ 0x80 ≤ b2 ∧ b2 ≤ 0x9F)
            ∨ (0xEE ≤ first ∧ first ≤ 0xEF ∧ 0x80 ≤ b2 ∧ b2 ≤ 0xBF))
        ∧ decodeSlow r3 = some t ∧ out = first :: b2 :: b3 :: t)
    ∨ (∃ b2 b3 f5 f6 r6 t, rest = b2 :: b3 :: 0xED :: f5 :: f6 :: r6
        ∧ first = 0xED ∧ 0xA0 ≤ b2 ∧ b2 ≤ 0xAF ∧ is_continuation_byte b3 = true
        ∧ is_continuation_byte f5 = true ∧ 0xB0 ≤ f5 ∧ f5 ≤ 0xBF
        ∧ is_continuation_byte f6 = true
        ∧ decodeSlow r6 = some t ∧ out = decode_surrogate_pair b2 b3 f5 f6 ++ t) := by
  rw [decodeSlow.eq_def] at h
  dsimp only at h
  by_cases h1 : first ≤ MAX_ASCII_CODE_POINT
  · rw [if_pos h1] at h
    obtain ⟨t, ht, hout⟩ := Option.map_eq_some'.mp h
    exact Or.inl ⟨by simpa [MAX_ASCII_CODE_POINT] using h1, t, ht, hout.symm⟩
  · rw [if_neg h1] at h
    simp only [MAX_ASCII_CODE_POINT] at h1
    by_cases hwn : utf8_char_width first = none
    · rw [if_pos hwn] at h
      exact absurd h (by simp)
    · rw [if_neg hwn] at h
      rcases rest with _ | ⟨b2, r2⟩
      · exact absurd h (by simp)
      · dsimp only at h
        by_cases hc2 : is_continuation_byte b2 = true
        · rw [if_neg (by simp [hc2])] at h
          by_cases hw2 : utf8_char_width first = some 2
          · rw [if_pos hw2] at h
            obtain ⟨t, ht, hout⟩ := Option.map_eq_some'.mp h
            obtain ⟨hf1, hf2⟩ := (width_two_iff first).mp hw2
            exact Or.inr (Or.inl ⟨b2, r2, t, rfl, hf1, hf2, hc2, ht, hout.symm⟩)
          · rw [if_neg hw2] at h
            by_cases hw3 : utf8_char_width first = some 3
            · rw [if_pos hw3] at h
              obtain ⟨hf1, hf2⟩ := (width_three_iff first).mp hw3
              rcases r2 with _ | ⟨b3, r3⟩
              · exact absurd h (by simp)
              · dsimp only at h
                by_cases hc3 : is_continuation_byte b3 = true
                · rw [if_neg (by simp [hc3])] at h
                  by_cases hord : (first = 0xE0 ∧ 0xA0 ≤ b2 ∧ b2 ≤ 0xBF)
                      ∨ (0xE1 ≤ first ∧ first ≤ 0xEC ∧ 0x80 ≤ b2 ∧ b2 ≤ 0xBF)
                      ∨ (first = 0xED ∧ 0x80 ≤ b2 ∧ b2 ≤ 0x9F)
                      ∨ (0xEE ≤ first ∧ first ≤ 0xEF ∧ 0x80 ≤ b2 ∧ b2 ≤ 0xBF)
                  · rw [if_pos hord] at h
                    obtain ⟨t, ht, hout⟩ := Option.map_eq_some'.mp h
                    exact Or.inr (Or.inr (Or.inl
                      ⟨b2, b3, r3, t, rfl, hf1, hf2, hc2, hc3, hord, ht, hout.symm⟩))
                  · rw [if_neg hord] at h
                    by_cases hpair : first = 0xED ∧ 0xA0 ≤ b2 ∧ b2 ≤ 0xAF
                    · rw [if_pos hpair] at h
                      rcases r3 with _ | ⟨f4, _ | ⟨f5, _ | ⟨f6, r6⟩⟩⟩
                      · exact absurd h (by simp)
                      · exact absurd h (by simp)
                      · exact absurd h (by simp)
                      · dsimp only at h
                        by_cases h4 : f4 = 0xED
                        · rw [if_neg (by simp [h4])] at h
                          by_cases hc5 : is_continuation_byte f5 = true
                          · rw [if_neg (by simp [hc5])] at h
                            by_cases h5r : 0xB0 ≤ f5 ∧ f5 ≤ 0xBF
                            · rw [if_neg (by simp [h5r])] at h
                              by_cases hc6 : is_continuation_byte f6 = true
                              · rw [if_neg (by simp [hc6])] at h
                                obtain ⟨t, ht, hout⟩ := Option.map_eq_some'.mp h
                                subst h4
                                exact Or.inr (Or.inr (Or.inr
                                  ⟨b2, b3, f5, f6, r6, t, rfl, hpair.1, hpair.2.1,
                                    hpair.2.2, hc3, hc5, h5r.1, h5r.2, hc6, ht, hout.symm⟩))
                              · rw [if_pos (by simp [hc6])] at h
                                exact absurd h (by simp)
                            · rw [if_pos h5r] at h
                              exact absurd h (by simp)
                          · rw [if_pos (by simp [hc5])] at h
                            exact absurd h (by simp)
                        · rw [if_pos h4] at h
                          exact absurd h (by simp)
                    · rw [if_neg hpair] at h
                      exact absurd h (by simp)
                · rw [if_pos (by simp [hc3])] at h
                  exact absurd h (by simp)
            · rw [if_neg hw3] at h
              exact absurd h (by simp)
        · rw [if_pos (by simp [hc2])] at h
          exact absurd h (by simp)

/-- Inversion of strict UTF-8 validity at a cons cell. -/
theorem utf8Valid_cons_true (b : Nat) (rest : List Nat) (h : utf8Valid (b :: rest) = true) :
    (b ≤ 0x7F ∧ utf8Valid rest = true)
    ∨ (∃ b2 r2, rest = b2 :: r2 ∧ 0xC2 ≤ b ∧ b ≤ 0xDF ∧ 0x80 ≤ b2 ∧ b2 ≤ 0xBF
        ∧ utf8Valid r2 = true)
    ∨ (∃ b2 b3 r3, rest = b2 :: b3 :: r3 ∧ 0xE0 ≤ b ∧ b ≤ 0xEF
        ∧ ((b = 0xE0 ∧ 0xA0 ≤ b2 ∧ b2 ≤ 0xBF)
            ∨ (0xE1 ≤ b ∧ b ≤ 0xEC ∧ 0x80 ≤ b2 ∧ b2 ≤ 0xBF)
            ∨ (b = 0xED ∧ 0x80 ≤ b2 ∧ b2 ≤ 0x9F)
            ∨ (0xEE ≤ b ∧ b ≤ 0xEF ∧ 0x80 ≤ b2 ∧ b2 ≤ 0xBF))
        ∧ 0x80 ≤ b3 ∧ b3 ≤ 0xBF ∧ utf8Valid r3 = true)
    ∨ (∃ b2 b3 b4 r4, rest = b2 :: b3 :: b4 :: r4 ∧ 0xF0 ≤ b ∧ b ≤ 0xF4
        ∧ ((b = 0xF0 ∧ 0x90 ≤ b2 ∧ b2 ≤ 0xBF)
            ∨ (0xF1 ≤ b ∧ b ≤ 0xF3 ∧ 0x80 ≤ b2 ∧ b2 ≤ 0xBF)
            ∨ (b = 0xF4 ∧ 0x80 ≤ b2 ∧ b2 ≤ 0x8F))
        ∧ 0x80 ≤ b3 ∧ b3 ≤ 0xBF ∧ 0x80 ≤ b4 ∧ b4 ≤ 0xBF ∧ utf8Valid r4 = true) := by
  rw [utf8Valid.eq_def] at h
  dsimp only at h
  by_cases h1 : b ≤ 0x7F
  · rw [if_pos h1] at h
    exact Or.inl ⟨h1, h⟩
  · rw [if_neg h1] at h
    rcases rest with _ | ⟨b2, r2⟩
    · exact absurd h (by simp)
    · dsimp only at h
      by_cases h2 : 0xC2 ≤ b ∧ b ≤ 0xDF
      · rw [if_pos h2] at h
        by_cases hr : 0x80 ≤ b2 ∧ b2 ≤ 0xBF
        · rw [if_pos hr] at h
          exact Or.inr (Or.inl ⟨b2, r2, rfl, h2.1, h2.2, hr.1, hr.2, h⟩)
        · rw [if_neg hr] at h
          exact absurd h (by simp)
      · rw [if_neg h2] at h
        rcases r2 with _ | ⟨b3, r3⟩
        · exact absurd h (by simp)
        · dsimp only at h
          by_cases h3 : 0xE0 ≤ b ∧ b ≤ 0xEF
          · rw [if_pos h3] at h
            by_cases hg : ((b = 0xE0 ∧ 0xA0 ≤ b2 ∧ b2 ≤ 0xBF)
                ∨ (0xE1 ≤ b ∧ b ≤ 0xEC ∧ 0x80 ≤ b2 ∧ b2 ≤ 0xBF)
                ∨ (b = 0xED ∧ 0x80 ≤ b2 ∧ b2 ≤ 0x9F)
                ∨ (0xEE ≤ b ∧ b ≤ 0xEF ∧ 0x80 ≤ b2 ∧ b2 ≤ 0xBF))
                ∧ 0x80 ≤ b3 ∧ b3 ≤ 0xBF
            · rw [if_pos hg] at h
              exact Or.inr (Or.inr (Or.inl
                ⟨b2, b3, r3, rfl, h3.1, h3.2, hg.1, hg.2.1, hg.2.2, h⟩))
            · rw [if_neg hg] at h
              exact absurd h (by simp)
          · rw [if_neg h3] at h
            rcases r3 with _ | ⟨b4, r4⟩
            · exact absurd h (by simp)
            · dsimp only at h
              by_cases h4 : 0xF0 ≤ b ∧ b ≤ 0xF4
              · rw [if_pos h4] at h
                by_cases hg : ((b = 0xF0 ∧ 0x90 ≤ b2 ∧ b2 ≤ 0xBF)
                    ∨ (0xF1 ≤ b ∧ b ≤ 0xF3 ∧ 0x80 ≤ b2 ∧ b2 ≤ 0xBF)
                    ∨ (b = 0xF4 ∧ 0x80 ≤ b2 ∧ b2 ≤ 0x8F))
                    ∧ 0x80 ≤ b3 ∧ b3 ≤ 0xBF ∧ 0x80 ≤ b4 ∧ b4 ≤ 0xBF
                · rw [if_pos hg] at h
                  exact Or.inr (Or.inr (Or.inr
                    ⟨b2, b3, b4, r4, rfl, h4.1, h4.2, hg.1, hg.2.1, hg.2.2.1,
                      hg.2.2.2.1, hg.2.2.2.2, h⟩))
                · rw [if_neg hg] at h
                  exact absurd h (by simp)
              · rw [if_neg h4] at h
                exact absurd h (by simp)

/-- The accumulator built by a successful slow decode is valid UTF-8. -/
theorem decodeSlow_output_valid (n : Nat) : ∀ bs out, bs.length ≤ n →
    (∀ x ∈ bs, x < 256) → decodeSlow bs = some out → utf8Valid out = true := by
  induction n with
  | zero =>
    intro bs out hlen hb h
    have hnil : bs = [] := List.length_eq_zero.mp (by omega)
    subst hnil
    simp only [decodeSlow, Option.some.injEq] at h
    subst h
    rfl
  | succ n ih =>
    intro bs out hlen hb h
    rcases bs with _ | ⟨first, rest⟩
    · simp only [decodeSlow, Option.some.injEq] at h
      subst h
      rfl
    · rcases decodeSlow_cons_some first rest out h with
        ⟨h7f, t, ht, hout⟩
      | ⟨b2, r2, t, hrest, hf1, hf2, hc2, ht, hout⟩
      | ⟨b2, b3, r3, t, hrest, hf1, hf2, hc2, hc3, hord, ht, hout⟩
      | ⟨b2, b3, f5, f6, r6, t, hrest, hfirst, hb2a, hb2b, hc3, hc5, h5a, h5b, hc6, ht, hout⟩
      · subst hout
        rw [uv_ascii first h7f]
        refine ih rest t ?_ ?_ ht
        · simp at hlen
          omega
        · exact fun x hx => hb x (by simp [hx])
      · subst hout hrest
        have hb2 : b2 < 256 := hb b2 (by simp)
        have hb2r := (is_continuation_byte_iff b2 hb2).mp hc2
        rw [uv_two first b2 hf1 hf2 hb2r]
        refine ih r2 t ?_ ?_ ht
        · simp at hlen
          omega
        · exact fun x hx => hb x (by simp [hx])
      · subst hout hrest
        have hb3 : b3 < 256 := hb b3 (by simp)
        have hb3r := (is_continuation_byte_iff b3 hb3).mp hc3
        rw [uv_three first b2 b3 hf1 hf2 ⟨hord, hb3r⟩]
        refine ih r3 t ?_ ?_ ht
        · simp at hlen
          omega
        · exact fun x hx => hb x (by simp [hx])
      · subst hout hrest hfirst
        have hb3 : b3 < 256 := hb b3 (by simp)
        have hb3r := (is_continuation_byte_iff b3 hb3).mp hc3
        have hb6 : f6 < 256 := hb f6 (by simp)
        have hb6r := (is_continuation_byte_iff f6 hb6).mp hc6
        rw [decode_surrogate_pair_eq b2 b3 f5 f6 hb2a hb2b hb3r.1 hb3r.2
          h5a h5b hb6r.1 hb6r.2]
        rw [utf8Valid_utf8Char _ (by constructor <;> omega)]
        refine ih r6 t ?_ ?_ ht
        · simp at hlen
          omega
        · exact fun x hx => hb x (by simp [hx])

/-- Claim C5: whenever `decode` succeeds the returned string's bytes are
valid UTF-8, and in particular the accumulator handed to the unchecked
string construction at the end of the slow path is always valid UTF-8. -/
theorem C5_decode_output_valid_utf8 (bs : List Nat) (hb : ∀ x ∈ bs, x < 256) :
    (∀ cow, decode bs = .ok cow → utf8Valid (Cow.val cow) = true)
    ∧ (∀ out, decodeSlow bs = some out → utf8Valid out = true) := by
  have hslow : ∀ out, decodeSlow bs = some out → utf8Valid out = true :=
    fun out => decodeSlow_output_valid bs.length bs out (le_refl _) hb
  refine ⟨?_, hslow⟩
  intro cow hd
  unfold decode at hd
  by_cases hv : utf8Valid bs = true
  · rw [if_pos hv] at hd
    cases hd
    exact hv
  · rw [if_neg hv] at hd
    rcases hout : decodeSlow bs with _ | out
    · rw [hout] at hd
      exact absurd hd (by simp)
    · rw [hout] at hd
      cases hd
      exact hslow out hout

theorem C5_witness :
    utf8Valid (Cow.val (Cow.owned [0xF0, 0x90, 0x90, 0x81])) = true :=
  (C5_decode_output_valid_utf8 [0xED, 0xA0, 0x81, 0xED, 0xB0, 0x81] (by decide)).1
    (Cow.owned [0xF0, 0x90, 0x90, 0x81]) (by rfl)

/-- A byte stream never passes strict UTF-8 validation when a
surrogate-range sequence `0xED`, `0xA0`-or-above appears anywhere in it. -/
theorem utf8Valid_surrogate_suffix (n : Nat) : ∀ bs s rest, bs.length ≤ n → 0xA0 ≤ s →
    utf8Valid (bs ++ 0xED :: s :: rest) = false := by
  induction n with
  | zero =>
    intro bs s rest hlen hs
    have hnil : bs = [] := List.length_eq_zero.mp (by omega)
    subst hnil
    simpa using uv_ED_surr s hs rest
  | succ n ih =>
    intro bs s rest hlen hs
    rcases bs with _ | ⟨b, bs2⟩
    · simpa using uv_ED_surr s hs rest
    · rcases hv : utf8Valid ((b :: bs2) ++ 0xED :: s :: rest) with _ | _
      · rfl
      · exfalso
        simp only [List.cons_append] at hv
        rcases utf8Valid_cons_true b (bs2 ++ 0xED :: s :: rest) hv with
          ⟨h7f, htail⟩ | ⟨b2, r2, heq, hb1, hb2, hr1, hr2, htail⟩
          | ⟨b2, b3, r3, heq, hb1, hb2, hg, hr3a, hr3b, htail⟩
          | ⟨b2, b3, b4, r4, heq, hb1, hb2, hg, hr3a, hr3b, hr4a, hr4b, htail⟩
        · rw [ih bs2 s rest (by simp at hlen; omega) hs] at htail
          simp at htail
        · rcases bs2 with _ | ⟨x, bs3⟩
          · simp only [List.nil_append, List.cons.injEq] at heq
            obtain ⟨rfl, _⟩ := heq
            omega
          · simp only [List.cons_append, List.cons.injEq] at heq
            obtain ⟨rfl, heq2⟩ := heq
            rw [← heq2, ih bs3 s rest (by simp at hlen; omega) hs] at htail
            simp at htail
        · rcases bs2 with _ | ⟨x, _ | ⟨y, bs4⟩⟩
          · simp only [List.nil_append, List.cons.injEq] at heq
            obtain ⟨rfl, rfl, _⟩ := heq
            omega
          · simp only [List.cons_append, List.nil_append, List.cons.injEq] at heq
            obtain ⟨rfl, rfl, _⟩ := heq
            omega
          · simp only [List.cons_append, List.cons.injEq] at heq
            obtain ⟨rfl, rfl, heq2⟩ := heq
            rw [← heq2, ih bs4 s rest (by simp at hlen; omega) hs] at htail
            simp at htail
        · rcases bs2 with _ | ⟨x, _ | ⟨y, _ | ⟨z, bs5⟩⟩⟩
          · simp only [List.nil_append, List.cons.injEq] at heq
            obtain ⟨rfl, rfl, _⟩ := heq
            omega
          · simp only [List.cons_append, List.nil_append, List.cons.injEq] at heq
            obtain ⟨rfl, rfl, rfl, _⟩ := heq
            omega
          · simp only [List.cons_append, List.nil_append, List.cons.injEq] at heq
            obtain ⟨rfl, rfl, rfl, rfl, _⟩ := heq
            omega
          · simp only [List.cons_append, List.cons.injEq] at heq
            obtain ⟨rfl, rfl, rfl, heq2⟩ := heq
            rw [← heq2, ih bs5 s rest (by simp at hlen; omega) hs] at htail
            simp at htail

/-- The slow decoder fails on the three bytes of a lone high surrogate. -/
theorem decodeSlow_ED_end (s t : Nat) (hs1 : 0xA0 ≤ s) (hs2 : s ≤ 0xAF) :
    decodeSlow [0xED, s, t] = none := by
  rcases hd : decodeSlow [0xED, s, t] with _ | out
  · rfl
  · exfalso
    rcases decodeSlow_cons_some 0xED [s, t] out hd with
      ⟨h7f, _⟩ | ⟨b2, r2, u, heq, hb1, hb2, _⟩
      | ⟨b2, b3, r3, u, heq, _, _, _, _, hord, _⟩
      | ⟨b2, b3, f5, f6, r6, u, heq, _⟩
    · omega
    · omega
    · simp only [List.cons.injEq] at heq
      obtain ⟨rfl, rfl, _⟩ := heq
      omega
    · simp at heq

/-- The slow decoder fails on any input ending in an unpaired
high-surrogate 3-byte sequence. -/
theorem decodeSlow_surrogate_end (n : Nat) : ∀ bs s t, bs.length ≤ n →
    0xA0 ≤ s → s ≤ 0xAF →
    decodeSlow (bs ++ [0xED, s, t]) = none := by
  induction n with
  | zero =>
    intro bs s t hlen hs1 hs2
    have hnil : bs = [] := List.length_eq_zero.mp (by omega)
    subst hnil
    simpa using decodeSlow_ED_end s t hs1 hs2
  | succ n ih =>
    intro bs s t hlen hs1 hs2
    rcases bs with _ | ⟨b, bs2⟩
    · simpa using decodeSlow_ED_end s t hs1 hs2
    · rcases hd : decodeSlow ((b :: bs2) ++ [0xED, s, t]) with _ | out
      · rfl
      · exfalso
        simp only [List.cons_append] at hd
        rcases decodeSlow_cons_some b (bs2 ++ [0xED, s, t]) out hd with
          ⟨h7f, u, hu, _⟩ | ⟨b2, r2, u, heq, hb1, hb2, hc2, hu, _⟩
          | ⟨b2, b3, r3, u, heq, hb1, hb2, hc2, hc3, hord, hu, _⟩
          | ⟨b2, b3, f5, f6, r6, u, heq, hbED, hb2a, hb2b, hc3, hc5, h5a, h5b, hc6, hu, _⟩
        · rw [ih bs2 s t (by simp at hlen; omega) hs1 hs2] at hu
          exact absurd hu (by simp)
        · rcases bs2 with _ | ⟨x, bs3⟩
          · simp only [List.nil_append, List.cons.injEq] at heq
            obtain ⟨rfl, _⟩ := heq
            rw [show is_continuation_byte 0xED = false from rfl] at hc2
            exact absurd hc2 (by simp)
          · simp only [List.cons_append, List.cons.injEq] at heq
            obtain ⟨rfl, heq2⟩ := heq
            rw [← heq2, ih bs3 s t (by simp at hlen; omega) hs1 hs2] at hu
            exact absurd hu (by simp)
        · rcases bs2 with _ | ⟨x, _ | ⟨y, bs4⟩⟩
          · simp only [List.nil_append, List.cons.injEq] at heq
            obtain ⟨rfl, rfl, _⟩ := heq
            rw [show is_continuation_byte 0xED = false from rfl] at hc2
            exact absurd hc2 (by simp)
          · simp only [List.cons_append, List.nil_append, List.cons.injEq] at heq
            obtain ⟨rfl, rfl, rfl, _⟩ := heq
            rw [show is_continuation_byte 0xED = false from rfl] at hc3
            exact absurd hc3 (by simp)
          · simp only [List.cons_append, List.cons.injEq] at heq
            obtain ⟨rfl, rfl, heq2⟩ := heq
            rw [← heq2, ih bs4 s t (by simp at hlen; omega) hs1 hs2] at hu
            exact absurd hu (by simp)
        · rcases bs2 with _ | ⟨x, _ | ⟨y, _ | ⟨z, bs5⟩⟩⟩
          · simp at heq
          · simp at heq
          · simp only [List.cons_append, List.nil_append, List.cons.injEq,
              true_and, and_true] at heq
            obtain ⟨rfl, rfl, rfl, rfl, rfl⟩ := heq
            omega
          · simp only [List.cons_append, List.cons.injEq, true_and] at heq
            obtain ⟨rfl, rfl, rfl, heq2⟩ := heq
            rcases bs5 with _ | ⟨w, _ | ⟨v, bs6⟩⟩
            · simp only [List.nil_append, List.cons.injEq] at heq2
              obtain ⟨rfl, _⟩ := heq2
              rw [show is_continuation_byte 0xED = false from rfl] at hc5
              exact absurd hc5 (by simp)
            · simp only [List.cons_append, List.nil_append, List.cons.injEq] at heq2
              obtain ⟨rfl, rfl, _⟩ := heq2
              rw [show is_continuation_byte 0xED = false from rfl] at hc6
              exact absurd hc6 (by simp)
            · simp only [List.cons_append, List.cons.injEq] at heq2
              obtain ⟨rfl, rfl, heq3⟩ := heq2
              rw [← heq3, ih bs6 s t (by simp at hlen; omega) hs1 hs2] at hu
              exact absurd hu (by simp)

/-- Claim C6: any input ending in a high-surrogate 3-byte sequence with
nothing following it — in particular `ED A0 81` alone — yields the single
opaque decoding error, not a partial or empty success. -/
theorem C6_unpaired_high_surrogate_fails (bs : List Nat) (s t : Nat)
    (hs1 : 0xA0 ≤ s) (hs2 : s ≤ 0xAF) (_ht : is_continuation_byte t = true) :
    decode (bs ++ [0xED, s, t]) = .error ⟨⟩ := by
  unfold decode
  have hu : utf8Valid (bs ++ [0xED, s, t]) = false :=
    utf8Valid_surrogate_suffix bs.length bs s [t] (le_refl _) (by omega)
  have hds : decodeSlow (bs ++ [0xED, s, t]) = none :=
    decodeSlow_surrogate_end bs.length bs s t (le_refl _) hs1 hs2
  rw [if_neg (by simp [hu]), hds]

theorem C6_witness : decode ([] ++ [0xED, 0xA0, 0x81]) = .error ⟨⟩ :=
  C6_unpaired_high_surrogate_fails [] 0xA0 0x81 (by decide) (by decide) (by decide)

/-- The CESU-8 chunk of the scalar combined from in-range surrogate bytes
is exactly those six original bytes. -/
theorem cesu8EncodeChar_of_pair (b2 b3 f5 f6 : Nat)
    (h2 : 0xA0 ≤ b2) (h2b : b2 ≤ 0xAF) (h3 : 0x80 ≤ b3) (h3b : b3 ≤ 0xBF)
    (h5 : 0xB0 ≤ f5) (h5b : f5 ≤ 0xBF) (h6 : 0x80 ≤ f6) (h6b : f6 ≤ 0xBF) :
    cesu8EncodeChar (0x10000 + (64 * (b2 - 0xA0) + (b3 - 0x80)) * 1024
        + (64 * (f5 - 0xB0) + (f6 - 0x80)))
      = [0xED, b2, b3, 0xED, f5, f6] := by
  rw [cec_supp _ (by omega)]
  simp only [List.cons.injEq, and_true, true_and]
  omega

/-- Inverse direction of the codec on the slow path: re-encoding a slow
decode's output reproduces the input bytes, and the output is legal
CESU-8 exactly when the input was already valid UTF-8. -/
theorem encodeSlow_decodeSlow (n : Nat) : ∀ bs out, bs.length ≤ n →
    (∀ x ∈ bs, x < 256) → decodeSlow bs = some out →
    encodeSlow out = some bs ∧ is_valid out = utf8Valid bs := by
  induction n with
  | zero =>
    intro bs out hlen hb h
    have hnil : bs = [] := List.length_eq_zero.mp (by omega)
    subst hnil
    simp only [decodeSlow, Option.some.injEq] at h
    subst h
    exact ⟨rfl, rfl⟩
  | succ n ih =>
    intro bs out hlen hb h
    rcases bs with _ | ⟨first, rest⟩
    · simp only [decodeSlow, Option.some.injEq] at h
      subst h
      exact ⟨rfl, rfl⟩
    · rcases decodeSlow_cons_some first rest out h with
        ⟨h7f, t, ht, hout⟩
      | ⟨b2, r2, t, hrest, hf1, hf2, hc2, ht, hout⟩
      | ⟨b2, b3, r3, t, hrest, hf1, hf2, hc2, hc3, hord, ht, hout⟩
      | ⟨b2, b3, f5, f6, r6, t, hrest, hfirst, hb2a, hb2b, hc3, hc5, h5a, h5b, hc6, ht, hout⟩
      · subst hout
        obtain ⟨hes, hiv⟩ := ih rest t (by simp at hlen; omega)
          (fun x hx => hb x (by simp [hx])) ht
        constructor
        · rw [es_ascii first h7f, hes]
          rfl
        · rw [uv_ascii first h7f, is_valid.eq_2]
          simp only [not_cont_low first h7f, utf8_char_width_1 first h7f]
          norm_num [CESU8_MAX_CHAR_WIDTH]
          exact hiv
      · subst hout hrest
        obtain ⟨hes, hiv⟩ := ih r2 t (by simp at hlen; omega)
          (fun x hx => hb x (by simp [hx])) ht
        have hb2 : b2 < 256 := hb b2 (by simp)
        have hb2r := (is_continuation_byte_iff b2 hb2).mp hc2
        constructor
        · rw [es_two first b2 hf1 hf2, hes]
          rfl
        · rw [uv_two first b2 hf1 hf2 hb2r, is_valid.eq_2]
          simp only [not_cont_high first (by omega) (by omega),
            utf8_char_width_2 first hf1 hf2]
          norm_num [CESU8_MAX_CHAR_WIDTH]
          rw [is_valid.eq_2]
          simp only [hc2]
          exact hiv
      · subst hout hrest
        obtain ⟨hes, hiv⟩ := ih r3 t (by simp at hlen; omega)
          (fun x hx => hb x (by simp [hx])) ht
        have hb3 : b3 < 256 := hb b3 (by simp)
        have hb3r := (is_continuation_byte_iff b3 hb3).mp hc3
        constructor
        · rw [es_three first b2 b3 hf1 hf2, hes]
          rfl
        · rw [uv_three first b2 b3 hf1 hf2 ⟨hord, hb3r⟩, is_valid.eq_2]
          simp only [not_cont_high first (by omega) (by omega),
            utf8_char_width_3 first hf1 hf2]
          norm_num [CESU8_MAX_CHAR_WIDTH]
          rw [is_valid.eq_2]
          simp only [hc2]
          rw [is_valid.eq_2]
          simp only [hc3]
          exact hiv
      · subst hout hrest hfirst
        obtain ⟨hes, hiv⟩ := ih r6 t (by simp at hlen; omega)
          (fun x hx => hb x (by simp [hx])) ht
        have hb3 : b3 < 256 := hb b3 (by simp)
        have hb3r := (is_continuation_byte_iff b3 hb3).mp hc3
        have hb6 : f6 < 256 := hb f6 (by simp)
        have hb6r := (is_continuation_byte_iff f6 hb6).mp hc6
        rw [decode_surrogate_pair_eq b2 b3 f5 f6 hb2a hb2b hb3r.1 hb3r.2
          h5a h5b hb6r.1 hb6r.2]
        constructor
        · rw [encodeSlow_utf8Char _ (by constructor <;> omega), hes]
          simp only [Option.map_some']
          rw [cesu8EncodeChar_of_pair b2 b3 f5 f6 hb2a hb2b hb3r.1 hb3r.2
            h5a h5b hb6r.1 hb6r.2]
          rfl
        · rw [iv_utf8Char _ (by constructor <;> omega), if_neg (by omega)]
          rw [uv_ED_surr b2 hb2a]

/-- Claim C10: on every byte sequence that is not valid UTF-8 but decodes
successfully (the slow CESU-8 path), re-encoding the decoded string
reproduces exactly the original bytes, as an owned buffer. -/
theorem C10_encode_after_decode_identity (bs : List Nat) (cow : Cow)
    (hb : ∀ x ∈ bs, x < 256) (hnv : utf8Valid bs = false)
    (hd : decode bs = .ok cow) :
    encode (Cow.val cow) = some (.owned bs) := by
  unfold decode at hd
  rw [if_neg (by simp [hnv])] at hd
  rcases hout : decodeSlow bs with _ | out
  · rw [hout] at hd
    exact absurd hd (by simp)
  · rw [hout] at hd
    have hcow : cow = .owned out := by
      cases hd
      rfl
    subst hcow
    obtain ⟨hes, hiv⟩ :=
      encodeSlow_decodeSlow bs.length bs out (le_refl _) hb hout
    show encode out = some (.owned bs)
    unfold encode
    rw [if_neg (by simp [hiv, hnv]), hes]
    rfl

theorem C10_witness :
    encode (Cow.val (Cow.owned [0xF0, 0x90, 0x90, 0x81]))
      = some (.owned [0xED, 0xA0, 0x81, 0xED, 0xB0, 0x81]) :=
  C10_encode_after_decode_identity [0xED, 0xA0, 0x81, 0xED, 0xB0, 0x81]
    (Cow.owned [0xF0, 0x90, 0x90, 0x81]) (by decide) (by rfl) (by rfl)
